import Mathlib

/-!
The path comparator and the insertion sort of `presort.c`.

A shallow embedding of `src/presort.c`.

* A `char` is a byte, a value in `0 .. 255` (`Byte`).
* A `const char *` that points at a NUL-terminated C string is the list of
  the bytes stored from the pointer on; reading at the end of the list yields
  the terminator `0` (`deref`), and `p++` drops the first byte.  A byte list
  with no `0` in it (`NulFree`) is exactly the content of a C string.
* An `agedu_t` holds three such pointers; the embedding keeps, for each
  pointer, the string it points at.
* `agedu_t **unsorted` is the list of the records stored from `*unsorted` on;
  an access outside that list is undefined behaviour in C and makes the
  embedded routine return `none`.
-/

namespace Presort

/-- One `char`, seen as its unsigned byte value. -/
abbrev Byte := Fin 256

/-- The file-scope variable `static char pathsep='/'`. -/
def pathsep : Byte := 47

/-- The value of `*p` for a pointer into a NUL-terminated string: the first
byte, or the terminator once the stored bytes are used up. -/
def deref : List Byte → Byte
  | [] => 0
  | c :: _ => c

/-- The pointer `p + 1`. -/
def next : List Byte → List Byte
  | [] => []
  | _ :: p => p

/-- The byte list holds no NUL: it is the content of a C string. -/
def NulFree (s : List Byte) : Prop := ∀ c ∈ s, c ≠ 0

instance (s : List Byte) : Decidable (NulFree s) := by
  unfold NulFree; infer_instance

/-- The loop `while (*a == *b && *a) a++, b++;` of `strcmppathsep`: the two
pointers where the loop stops.  When either list is used up the condition is
false (`*a` is `0`, or `*b` is `0` and then `*a == *b` forces `*a` to be `0`). -/
def skipEqual : List Byte → List Byte → List Byte × List Byte
  | x :: a, y :: b => if x = y ∧ x ≠ 0 then skipEqual a b else (x :: a, y :: b)
  | a, b => (a, b)

/-- The statements of `strcmppathsep` after its loop, on the bytes `*a` and
`*b` the loop stopped at. -/
def decideAt (ca cb : Byte) : Int :=
  if cb = pathsep ∧ ca = 0 then -1
  else if ca = pathsep ∧ cb = 0 then 1
  else if ca = pathsep then -1
  else if cb = pathsep then 1
  else (ca.val : Int) - (cb.val : Int)

/-- The function `int strcmppathsep(const char *a, const char *b)`. -/
def strcmppathsep (a b : List Byte) : Int :=
  decideAt (deref (skipEqual a b).1) (deref (skipEqual a b).2)

/-- The struct `agedu_t`: each field is the string its pointer points at. -/
structure agedu_t where
  sz : List Byte
  atime : List Byte
  path : List Byte
deriving DecidableEq

/-- The function `int compareentries(const agedu_t *a, const agedu_t *b)`. -/
def compareentries (a b : agedu_t) : Int :=
  strcmppathsep a.path b.path

/-- The body of the `while` loop of `insert_sort` up to `d--`: with
`p1 = (*unsorted)+d-1` and `p2 = (*unsorted)+d`, the fields `sz` and `path` of
`*p1` and `*p2` are exchanged through `ap`; `atime` is not assigned. -/
def swapStep (unsorted : List agedu_t) (d : Nat) (p1 p2 : agedu_t) : List agedu_t :=
  (unsorted.set d { p2 with sz := p1.sz, path := p1.path }).set (d - 1)
    { p1 with sz := p2.sz, path := p2.path }

/-- The loop `while (d > 0 && compareentries(p1, p2) > 0) { ...; d--; ... }`
of `insert_sort`, entered with the given `d`.  `none` when `p1` or `p2` is
dereferenced outside the stored records. -/
def whileLoop (unsorted : List agedu_t) : Nat → Option (List agedu_t)
  | 0 => some unsorted
  | d + 1 =>
    match unsorted[d]?, unsorted[d + 1]? with
    | some p1, some p2 =>
      if compareentries p1 p2 > 0 then
        whileLoop (swapStep unsorted (d + 1) p1 p2) d
      else some unsorted
    | _, _ => none

/-- The loop `for (c = 1 ; c <= nel - 1; c++)` of `insert_sort`, entered with
the given `c`, with the number of iterations still to run (`nel - c` of them,
none when `c > nel - 1`) as the recursion argument. -/
def forLoop (unsorted : List agedu_t) (c : Nat) : Nat → Option (List agedu_t)
  | 0 => some unsorted
  | k + 1 =>
    match whileLoop unsorted c with
    | some l => forLoop l (c + 1) k
    | none => none

/-- The function `void insert_sort(agedu_t ** unsorted, const int nel)`: the
records stored at `*unsorted` when it returns.  The `for` loop starts at
`c = 1` and runs while `c <= nel - 1`, that is `nel - 1` times (not at all
when `nel <= 1`).  `nel - 1` is the difference of the integers, which is what
C computes for every `int` but `INT_MIN`, where it leaves the subtraction
undefined. -/
def insert_sort (unsorted : List agedu_t) (nel : Int) : Option (List agedu_t) :=
  forLoop unsorted 1 (nel - 1).toNat

/-- The paths of the records, in sequence order. -/
def paths (l : List agedu_t) : List (List Byte) := l.map agedu_t.path

/-- The sequence is non-decreasing under the path comparator: every earlier
path compares `<= 0` with every later one. -/
def SortedByPath (l : List agedu_t) : Prop :=
  (paths l).Pairwise (fun p q => strcmppathsep p q ≤ 0)

instance (l : List agedu_t) : Decidable (SortedByPath l) := by
  unfold SortedByPath; infer_instance

/-! ## Auxiliary definitions used in the proofs

`rank` lists the bytes in the order `decideAt` puts them: the terminator,
then the separator, then every other byte by value. -/

/-- The position of a byte in the order used at the first difference. -/
def rank (c : Byte) : Nat :=
  if c = 0 then 0 else if c = pathsep then 1 else c.val + 1

/-- The ranks of the bytes of the C string stored in the list (up to the first
NUL, if the list has one). -/
def ranks : List Byte → List Nat
  | [] => []
  | c :: s => if c = 0 then [] else rank c :: ranks s

/-- The path of the record stored at index `i`, when there is one. -/
def pathAt (l : List agedu_t) (i : Nat) : Option (List Byte) :=
  (l[i]?).map agedu_t.path

/-- The paths at indices `i` and `j` compare `<= 0`. -/
def LeAt (l : List agedu_t) (i j : Nat) : Prop :=
  ∀ p q, pathAt l i = some p → pathAt l j = some q → strcmppathsep p q ≤ 0

/-- The paths at indices `i` and `j` compare `< 0`. -/
def LtAt (l : List agedu_t) (i j : Nat) : Prop :=
  ∀ p q, pathAt l i = some p → pathAt l j = some q → strcmppathsep p q < 0

/-- The first `n` records are non-decreasing by path. -/
def SortedUpTo (l : List agedu_t) (n : Nat) : Prop :=
  ∀ i j, i < j → j < n → LeAt l i j

/-- The two fields of a record the swap moves: `sz` and `path`. -/
def keyOf (r : agedu_t) : List Byte × List Byte := (r.sz, r.path)

/-! ## Concrete strings and records used as examples -/

/-- The bytes of an ASCII string literal. -/
def bytes (s : String) : List Byte := s.toList.map (fun c => Fin.ofNat c.toNat)

/-- The path `dir`. -/
def s_dir : List Byte := bytes "dir"

/-- The name `child`. -/
def s_child : List Byte := bytes "child"

/-- The path `dir/a`. -/
def s_dir_a : List Byte := bytes "dir/a"

/-- The path `dir.txt`. -/
def s_dir_txt : List Byte := bytes "dir.txt"

/-- The path `directory`. -/
def s_directory : List Byte := bytes "directory"

/-- The record `main` builds for the line `20 T2 /b`: `sz` points at the start
of the line, `atime` after the first space, `path` after the second, and only
the newline is overwritten with a terminator. -/
def rec_b : agedu_t := ⟨bytes "20 T2 /b", bytes "T2 /b", bytes "/b"⟩

/-- The record `main` builds for the line `10 T1 /a`. -/
def rec_a : agedu_t := ⟨bytes "10 T1 /a", bytes "T1 /a", bytes "/a"⟩

/-- The record at index 0 after sorting `rec_b, rec_a`: `sz` and `path` of
`rec_a`, `atime` of `rec_b`. -/
def rec_a_moved : agedu_t := ⟨bytes "10 T1 /a", bytes "T2 /b", bytes "/a"⟩

/-- The record at index 1 after sorting `rec_b, rec_a`: `sz` and `path` of
`rec_b`, `atime` of `rec_a`. -/
def rec_b_moved : agedu_t := ⟨bytes "20 T2 /b", bytes "T1 /a", bytes "/b"⟩

/-- Three records, not in path order, with paths `dir/a`, `dir.txt`, `dir`. -/
def recs_unsorted : List agedu_t :=
  [⟨bytes "1", bytes "x", s_dir_a⟩, ⟨bytes "2", bytes "y", s_dir_txt⟩,
    ⟨bytes "3", bytes "z", s_dir⟩]

/-- Three records in path order, with paths `dir`, `dir/a`, `dir.txt`. -/
def recs_sorted : List agedu_t :=
  [⟨bytes "3", bytes "z", s_dir⟩, ⟨bytes "1", bytes "x", s_dir_a⟩,
    ⟨bytes "2", bytes "y", s_dir_txt⟩]

/-! ## The parser and `main`

The mapping `addr .. addr + length` is the list of the file's bytes; a pointer
into it is its offset from `addr`.  A read or write outside the mapping, or
through the null pointer, is undefined behaviour in C and makes the embedded
code return `none`.  Every such point of `main` lies before its first
`printf`, so `none` stands for a run that ends abnormally with nothing
written to standard output. -/

/-- The variable `newline` of `main`, `'\012'`. -/
def newline : Byte := 10

/-- The character `' '` that `main` searches for. -/
def space : Byte := 32

/-- The search of `strchr(s, c)`, `c` not NUL, over the bytes stored from `s`
to the end of the mapping, `i` being the offset of `s`: `some (some j)` is the
pointer to the first `c`, `some none` the null pointer returned when the
terminator comes first, `none` a read past the mapping. -/
def scan (c : Byte) : List Byte → Nat → Option (Option Nat)
  | [], _ => none
  | x :: rest, i =>
    if x = c then some (some i)
    else if x = 0 then some none
    else scan c rest (i + 1)

/-- The library call `strchr(p, c)` on the mapping. -/
def strchr (mem : List Byte) (p : Nat) (c : Byte) : Option (Option Nat) :=
  scan c (mem.drop p) p

/-- An `agedu_t` as `main` fills it: the three pointers, as offsets from
`addr`. -/
structure agedu_ptr where
  sz : Nat
  atime : Nat
  path : Nat
deriving DecidableEq

/-- The number of `agedu_t` records `main` allocates for `presortlist`. -/
def capacity : Nat := 1000000

/-- The loop `while (p < addr + length) { ... }` of `main`, entered with the
mapping `mem`, the pointer `p` and the records filled so far (`rownum` is
their number, `adup` points behind them).  Each iteration stores a record
(outside the allocated array once `capacity` records are stored), calls
`strchr` three times and overwrites the newline it found with NUL.  A null
result of `strchr` is incremented and passed on to the next `strchr`, or
written through: all three end the run.  The first argument bounds the number
of iterations; `main` passes the length of the mapping, and every iteration
moves `p` forward. -/
def parseLoop : Nat → List Byte → Nat → List agedu_ptr → Option (List Byte × List agedu_ptr)
  | 0, mem, p, rows => if p < mem.length then none else some (mem, rows)
  | fuel + 1, mem, p, rows =>
    if p < mem.length then
      if rows.length < capacity then
        match strchr mem p space with
        | some (some i1) =>
          match strchr mem (i1 + 1) space with
          | some (some i2) =>
            match strchr mem (i2 + 1) newline with
            | some (some i3) =>
              parseLoop fuel (mem.set i3 0) (i3 + 1) (rows ++ [⟨p, i1 + 1, i2 + 1⟩])
            | _ => none
          | _ => none
        | _ => none
      else none
    else some (mem, rows)

/-- The string a `%s` or `strcmppathsep` reads from the bytes stored from a
pointer on: the bytes before the first NUL; `none` when the mapping ends
before a NUL is found. -/
def cstrFrom : List Byte → Option (List Byte)
  | [] => none
  | c :: rest => if c = 0 then some [] else (cstrFrom rest).map (fun s => c :: s)

/-- The string stored at pointer `p` of the mapping. -/
def cstr (mem : List Byte) (p : Nat) : Option (List Byte) :=
  cstrFrom (mem.drop p)

/-- The record of strings that the three pointers of an `agedu_t` point at. -/
def load (mem : List Byte) (r : agedu_ptr) : Option agedu_t :=
  match cstr mem r.sz, cstr mem r.atime, cstr mem r.path with
  | some s, some a, some p => some ⟨s, a, p⟩
  | _, _, _ => none

/-- The records of strings for the whole array. -/
def loadAll (mem : List Byte) : List agedu_ptr → Option (List agedu_t)
  | [] => some []
  | r :: rest =>
    match load mem r, loadAll mem rest with
    | some x, some xs => some (x :: xs)
    | _, _ => none

/-- The loop `for (i = 0; i < len; i++) printf("%s\n", (adup+i)->sz);` of
`printsorted`, entered with the given `i`, with the number of iterations still
to run as the recursion argument: the bytes written. -/
def printLoop (adup : List agedu_t) (i : Nat) : Nat → Option (List Byte)
  | 0 => some []
  | k + 1 =>
    match adup[i]?, printLoop adup (i + 1) k with
    | some r, some out => some (r.sz ++ newline :: out)
    | _, _ => none

/-- The function `void printsorted(const agedu_t * adup, const int len)`: the
bytes it writes to standard output. -/
def printsorted (adup : List agedu_t) (len : Int) : Option (List Byte) :=
  printLoop adup 0 len.toNat

/-- The statements of `main` from `p = header = addr` to the end of its
`while` loop: the header line is cut off by overwriting the first newline, and
the rows are parsed.  The result is the mapping with the terminators written
and the records filled. -/
def parse (file : List Byte) : Option (List Byte × List agedu_ptr) :=
  match strchr file 0 newline with
  | some (some i) => parseLoop file.length (file.set i 0) (i + 1) []
  | _ => none

/-- The function `main`, from the successful `mmap` of the file on: the bytes
written to standard output when it returns `EXIT_SUCCESS`.  `mmap` fails on a
file of length 0.  The file is parsed, `insert_sort` and `printsorted` are
called with `rownum` on the records filled (the entries of `presortlist`
behind them are not initialised), and the header is printed before the rows. -/
def main (file : List Byte) : Option (List Byte) :=
  if file.length = 0 then none
  else
    match parse file with
    | some (mem, rows) =>
      match cstr mem 0, loadAll mem rows with
      | some header, some presortlist =>
        match insert_sort presortlist rows.length with
        | some sorted =>
          match printsorted sorted rows.length with
          | some out => some (header ++ newline :: out)
          | none => none
        | none => none
      | _, _ => none
    | none => none

/-- The text behind the first space of a text (empty when there is none). -/
def afterSpace (t : List Byte) : List Byte :=
  (t.dropWhile (fun c => c ≠ space)).drop 1

/-- The text of a data line after its second space. -/
def afterSecondSpace (t : List Byte) : List Byte :=
  afterSpace (afterSpace t)

/-- The byte the parser leaves at a position that held `c`: NUL for a newline,
`c` itself otherwise. -/
def terminate (c : Byte) : Byte := if c = newline then 0 else c

/-- The end-to-end input of the specification. -/
def example_input : List Byte :=
  bytes "HEADER\n100 2020-01-01 /a\n50 2020-01-01 /a/b\n10 2020-01-01 /ab\n"

/-- The output the specification expects for `example_input`. -/
def example_sizes_only : List Byte := bytes "HEADER\n100\n50\n10\n"

/-- An input whose first data line has one space only. -/
def malformed_input : List Byte := bytes "H\n100 onlyonefield\n5 t /x\n"

/-- An input whose only data line has one space only. -/
def malformed_last : List Byte := bytes "H\n100 onlyonefield\n"

/-! ## The input format -/

/-- One data line of the report, as the text of its three fields. -/
structure Line where
  size : List Byte
  atime : List Byte
  path : List Byte
deriving DecidableEq

/-- The text of a data line without its newline: `<size> <accessTime> <path>`. -/
def Line.text (ln : Line) : List Byte :=
  ln.size ++ space :: (ln.atime ++ space :: ln.path)

/-- The parser splits the text of the line at these three fields: the first
two hold neither a space nor a NUL, the third neither a newline nor a NUL. -/
def Line.Parses (ln : Line) : Prop :=
  (∀ c ∈ ln.size, c ≠ space ∧ c ≠ 0) ∧ (∀ c ∈ ln.atime, c ≠ space ∧ c ≠ 0) ∧
    (∀ c ∈ ln.path, c ≠ newline ∧ c ≠ 0)

instance (ln : Line) : Decidable ln.Parses := by
  unfold Line.Parses; infer_instance

/-- A well-formed data line: three fields separated by single spaces, the
first two without a space, none with a newline or a NUL (the path may hold
spaces). -/
def Line.WellFormed (ln : Line) : Prop :=
  ln.Parses ∧ newline ∉ ln.size ∧ newline ∉ ln.atime

instance (ln : Line) : Decidable ln.WellFormed := by
  unfold Line.WellFormed; infer_instance

/-- A header line: any text without a newline or a NUL. -/
def HeaderOk (h : List Byte) : Prop := ∀ c ∈ h, c ≠ newline ∧ c ≠ 0

instance (h : List Byte) : Decidable (HeaderOk h) := by
  unfold HeaderOk; infer_instance

/-- The data lines of a file, each terminated by a newline. -/
def dataText : List Line → List Byte
  | [] => []
  | ln :: rest => ln.text ++ newline :: dataText rest

/-- The data lines with each terminating newline overwritten by NUL. -/
def dataTerminated : List Line → List Byte
  | [] => []
  | ln :: rest => ln.text ++ 0 :: dataTerminated rest

/-- The file with the given header line and data lines. -/
def fileOf (h : List Byte) (lines : List Line) : List Byte :=
  h ++ newline :: dataText lines

/-- The pointers `main` stores for the data lines when the first of them
starts at offset `p`. -/
def rowsAt : Nat → List Line → List agedu_ptr
  | _, [] => []
  | p, ln :: rest =>
    ⟨p, p + ln.size.length + 1, p + ln.size.length + 1 + ln.atime.length + 1⟩ ::
      rowsAt (p + ln.text.length + 1) rest

/-- The strings the three pointers of the record of a data line point at once
the line is terminated: `sz` the whole line, `atime` the line from the access
time on, `path` the path. -/
def recordOf (ln : Line) : agedu_t :=
  ⟨ln.text, ln.atime ++ space :: ln.path, ln.path⟩

/-- The bytes `printsorted` writes for the records: each `sz` and a newline. -/
def printed : List agedu_t → List Byte
  | [] => []
  | r :: rest => r.sz ++ newline :: printed rest

/-- A field of a well-formed data line that holds no space: neither a space,
nor a newline, nor a NUL. -/
def FieldOk (s : List Byte) : Prop := ∀ c ∈ s, c ≠ space ∧ c ≠ newline ∧ c ≠ 0

instance (s : List Byte) : Decidable (FieldOk s) := by
  unfold FieldOk; infer_instance

/-- The header line of the end-to-end input. -/
def example_header : List Byte := bytes "HEADER"

/-- The data lines of the end-to-end input. -/
def example_lines : List Line :=
  [⟨bytes "100", bytes "2020-01-01", bytes "/a"⟩,
    ⟨bytes "50", bytes "2020-01-01", bytes "/a/b"⟩,
    ⟨bytes "10", bytes "2020-01-01", bytes "/ab"⟩]

/-- The well-formed line `5 t /x`. -/
def line_x : Line := ⟨bytes "5", bytes "t", bytes "/x"⟩

/-! ## The comparator as a lexicographic order -/

theorem skipEqual_loop (a b : List Byte) :
    skipEqual a b =
      if deref a = deref b ∧ deref a ≠ 0 then skipEqual (next a) (next b) else (a, b) := by
  cases a with
  | nil => simp [skipEqual, deref]
  | cons x a =>
    cases b with
    | nil =>
      by_cases hx : x = 0
      · simp [skipEqual, deref, hx]
      · simp [skipEqual, deref, hx]
    | cons y b => simp [skipEqual, deref, next]

theorem val_pathsep : ((47 : Byte) : Nat) = 47 := rfl

theorem val_nul : ((0 : Byte) : Nat) = 0 := rfl

/-- At the bytes the loop stops at (they differ, or both are the terminator)
the result changes sign when the arguments are exchanged. -/
theorem decideAt_neg_swap (x y : Byte) (h : ¬(x = y ∧ x ≠ 0)) :
    decideAt x y = -decideAt y x := by
  unfold decideAt pathsep
  simp only [Fin.ext_iff, val_pathsep, val_nul, ne_eq] at h ⊢
  split_ifs <;> omega

theorem decideAt_neg_iff (x y : Byte) (h : ¬(x = y ∧ x ≠ 0)) :
    decideAt x y < 0 ↔ rank x < rank y := by
  unfold decideAt rank pathsep
  simp only [Fin.ext_iff, val_pathsep, val_nul, ne_eq] at h ⊢
  split_ifs <;> omega

theorem decideAt_eq_zero_iff (x y : Byte) (h : ¬(x = y ∧ x ≠ 0)) :
    decideAt x y = 0 ↔ x = y := by
  unfold decideAt pathsep
  simp only [Fin.ext_iff, val_pathsep, val_nul, ne_eq] at h ⊢
  split_ifs <;> constructor <;> intro hh <;> first | omega | exact hh.elim

theorem rank_eq_zero_iff (x : Byte) : rank x = 0 ↔ x = 0 := by
  unfold rank pathsep
  simp only [Fin.ext_iff, val_pathsep, val_nul]
  split_ifs <;> constructor <;> intro hh <;> first | omega | exact hh.elim

theorem rank_injective (x y : Byte) (h : rank x = rank y) : x = y := by
  unfold rank pathsep at h
  simp only [Fin.ext_iff, val_pathsep, val_nul] at h ⊢
  split_ifs at h <;> omega

theorem strcmppathsep_nil_left (b : List Byte) :
    strcmppathsep [] b = decideAt 0 (deref b) := by
  cases b <;> simp [strcmppathsep, skipEqual, deref]

theorem strcmppathsep_nil_right (a : List Byte) :
    strcmppathsep a [] = decideAt (deref a) 0 := by
  cases a <;> simp [strcmppathsep, skipEqual, deref]

theorem strcmppathsep_cons_cons (x y : Byte) (a b : List Byte) :
    strcmppathsep (x :: a) (y :: b) =
      if x = y ∧ x ≠ 0 then strcmppathsep a b else decideAt x y := by
  unfold strcmppathsep
  by_cases h : x = y ∧ x ≠ 0
  · obtain ⟨rfl, hx⟩ := h
    simp [skipEqual, hx]
  · simp only [skipEqual, h, if_false, deref]

theorem strcmppathsep_neg_swap (a b : List Byte) :
    strcmppathsep a b = -strcmppathsep b a := by
  induction a generalizing b with
  | nil =>
    rw [strcmppathsep_nil_left, strcmppathsep_nil_right]
    exact decideAt_neg_swap _ _ (fun h => h.2 rfl)
  | cons x a ih =>
    cases b with
    | nil =>
      rw [strcmppathsep_nil_left, strcmppathsep_nil_right]
      exact decideAt_neg_swap _ _ (fun h => h.2 h.1)
    | cons y b =>
      rw [strcmppathsep_cons_cons, strcmppathsep_cons_cons]
      by_cases h : x = y ∧ x ≠ 0
      · have h2 : y = x ∧ y ≠ 0 := ⟨h.1.symm, h.1 ▸ h.2⟩
        rw [if_pos h, if_pos h2]
        exact ih b
      · have h2 : ¬(y = x ∧ y ≠ 0) := fun hh => h ⟨hh.1.symm, hh.1 ▸ hh.2⟩
        rw [if_neg h, if_neg h2]
        exact decideAt_neg_swap x y h

theorem lex_cons_of_ne {α : Type} [LT α] {m n : α} (h : m ≠ n) (s t : List α) :
    List.Lex (· < ·) (m :: s) (n :: t) ↔ m < n := by
  constructor
  · intro hl
    cases hl with
    | cons _ => exact absurd rfl h
    | rel hlt => exact hlt
  · intro hlt
    exact List.Lex.rel hlt

theorem strcmppathsep_neg_iff (a b : List Byte) :
    strcmppathsep a b < 0 ↔ List.Lex (· < ·) (ranks a) (ranks b) := by
  induction a generalizing b with
  | nil =>
    rw [strcmppathsep_nil_left, decideAt_neg_iff _ _ (fun h => h.2 rfl)]
    cases b with
    | nil => simp [deref, ranks, List.Lex.not_nil_right]
    | cons y b =>
      by_cases hy : y = 0
      · simp [deref, ranks, hy, List.Lex.not_nil_right]
      · have hr : 0 < rank y := Nat.pos_of_ne_zero (fun h => hy ((rank_eq_zero_iff y).1 h))
        have h0 : rank 0 = 0 := (rank_eq_zero_iff 0).2 rfl
        simp only [deref, ranks, hy, if_false, h0, hr, true_iff]
        exact List.Lex.nil
  | cons x a ih =>
    cases b with
    | nil =>
      rw [strcmppathsep_nil_right,
        decideAt_neg_iff _ _ (fun h => h.2 h.1)]
      have h0 : rank 0 = 0 := (rank_eq_zero_iff 0).2 rfl
      simp [deref, ranks, h0, List.Lex.not_nil_right]
    | cons y b =>
      rw [strcmppathsep_cons_cons]
      by_cases h : x = y ∧ x ≠ 0
      · obtain ⟨rfl, hx⟩ := h
        simp only [hx, ne_eq, not_false_eq_true, and_self, if_true, ranks, if_false]
        rw [ih b, List.Lex.cons_iff]
      · rw [if_neg h, decideAt_neg_iff x y h]
        by_cases hx : x = 0
        · subst hx
          have h0 : rank 0 = 0 := (rank_eq_zero_iff 0).2 rfl
          by_cases hy : y = 0
          · simp [ranks, hy, List.Lex.not_nil_right]
          · have hr : 0 < rank y :=
              Nat.pos_of_ne_zero (fun h => hy ((rank_eq_zero_iff y).1 h))
            simp only [ranks, hy, if_false, h0, hr, true_iff, if_true]
            exact List.Lex.nil
        · by_cases hy : y = 0
          · subst hy
            have h0 : rank 0 = 0 := (rank_eq_zero_iff 0).2 rfl
            simp [ranks, hx, h0, List.Lex.not_nil_right]
          · have hxy : x ≠ y := fun e => h ⟨e, hx⟩
            have hne : rank x ≠ rank y := fun e => hxy (rank_injective x y e)
            simp only [ranks, hx, hy, if_false]
            exact (lex_cons_of_ne hne _ _).symm

theorem strcmppathsep_eq_zero_iff (a b : List Byte) :
    strcmppathsep a b = 0 ↔ ranks a = ranks b := by
  have h1 := strcmppathsep_neg_iff a b
  have h2 := strcmppathsep_neg_iff b a
  have h3 := strcmppathsep_neg_swap a b
  constructor
  · intro h
    rcases (IsTrichotomous.trichotomous (ranks a) (ranks b) :
        List.Lex (· < ·) (ranks a) (ranks b) ∨ ranks a = ranks b ∨
          List.Lex (· < ·) (ranks b) (ranks a)) with hl | he | hg
    · have := h1.2 hl
      omega
    · exact he
    · have := h2.2 hg
      omega
  · intro h
    have hirr : ¬List.Lex (· < ·) (ranks b) (ranks b) := IsIrrefl.irrefl (ranks b)
    rw [h] at h1 h2
    have n1 : ¬strcmppathsep a b < 0 := fun hh => hirr (h1.1 hh)
    have n2 : ¬strcmppathsep b a < 0 := fun hh => hirr (h2.1 hh)
    omega

theorem strcmppathsep_le_iff (a b : List Byte) :
    strcmppathsep a b ≤ 0 ↔
      List.Lex (· < ·) (ranks a) (ranks b) ∨ ranks a = ranks b := by
  rw [← strcmppathsep_neg_iff, ← strcmppathsep_eq_zero_iff]
  omega

theorem lex_ranks_trans {r s t : List Nat} (h1 : List.Lex (· < ·) r s)
    (h2 : List.Lex (· < ·) s t) : List.Lex (· < ·) r t :=
  IsTrans.trans r s t h1 h2

theorem strcmppathsep_le_trans (a b c : List Byte) (hab : strcmppathsep a b ≤ 0)
    (hbc : strcmppathsep b c ≤ 0) : strcmppathsep a c ≤ 0 := by
  rw [strcmppathsep_le_iff] at hab hbc ⊢
  rcases hab with hab | hab
  · rcases hbc with hbc | hbc
    · exact Or.inl (lex_ranks_trans hab hbc)
    · exact Or.inl (hbc ▸ hab)
  · rw [hab]
    exact hbc

theorem strcmppathsep_lt_of_lt_of_le (a b c : List Byte) (hab : strcmppathsep a b < 0)
    (hbc : strcmppathsep b c ≤ 0) : strcmppathsep a c < 0 := by
  rw [strcmppathsep_le_iff] at hbc
  rw [strcmppathsep_neg_iff] at hab ⊢
  rcases hbc with hbc | hbc
  · exact lex_ranks_trans hab hbc
  · exact hbc ▸ hab

theorem strcmppathsep_lt_of_le_of_lt (a b c : List Byte) (hab : strcmppathsep a b ≤ 0)
    (hbc : strcmppathsep b c < 0) : strcmppathsep a c < 0 := by
  rw [strcmppathsep_le_iff] at hab
  rw [strcmppathsep_neg_iff] at hbc ⊢
  rcases hab with hab | hab
  · exact lex_ranks_trans hab hbc
  · rw [hab]
    exact hbc

theorem ranks_injective (a b : List Byte) (ha : NulFree a) (hb : NulFree b)
    (h : ranks a = ranks b) : a = b := by
  induction a generalizing b with
  | nil =>
    cases b with
    | nil => rfl
    | cons y b =>
      have hy : y ≠ 0 := hb y (List.mem_cons_self y b)
      simp [ranks, hy] at h
  | cons x a ih =>
    have hx : x ≠ 0 := ha x (List.mem_cons_self x a)
    cases b with
    | nil => simp [ranks, hx] at h
    | cons y b =>
      have hy : y ≠ 0 := hb y (List.mem_cons_self y b)
      simp only [ranks, hx, hy, if_false, List.cons.injEq] at h
      have e1 : x = y := rank_injective x y h.1
      have e2 : a = b :=
        ih b (fun c hc => ha c (List.mem_cons_of_mem x hc))
          (fun c hc => hb c (List.mem_cons_of_mem y hc)) h.2
      rw [e1, e2]

theorem strcmppathsep_self (a : List Byte) : strcmppathsep a a = 0 :=
  (strcmppathsep_eq_zero_iff a a).2 rfl

theorem strcmppathsep_eq_zero_of_nulFree (a b : List Byte) (ha : NulFree a)
    (hb : NulFree b) : strcmppathsep a b = 0 ↔ a = b := by
  constructor
  · intro h
    exact ranks_injective a b ha hb ((strcmppathsep_eq_zero_iff a b).1 h)
  · intro h
    rw [h]
    exact strcmppathsep_self b

/-! ## Common prefixes and the first point of difference -/

theorem strcmppathsep_append_left (p s t : List Byte) (hp : NulFree p) :
    strcmppathsep (p ++ s) (p ++ t) = strcmppathsep s t := by
  induction p with
  | nil => rfl
  | cons c p ih =>
    have hc : c ≠ 0 := hp c (List.mem_cons_self c p)
    have hp2 : NulFree p := fun x hx => hp x (List.mem_cons_of_mem c hx)
    rw [List.cons_append, List.cons_append, strcmppathsep_cons_cons]
    simp only [hc, ne_eq, not_false_eq_true, and_self, if_true]
    exact ih hp2

theorem strcmppathsep_of_stop (s t : List Byte) (h : ¬(deref s = deref t ∧ deref s ≠ 0)) :
    strcmppathsep s t = decideAt (deref s) (deref t) := by
  cases s with
  | nil => exact strcmppathsep_nil_left t
  | cons x s =>
    cases t with
    | nil => exact strcmppathsep_nil_right (x :: s)
    | cons y t =>
      rw [strcmppathsep_cons_cons]
      simp only [deref] at h
      rw [if_neg h]
      rfl

theorem strcmppathsep_parent_child (dir child : List Byte) (hd : NulFree dir) :
    strcmppathsep dir (dir ++ [pathsep] ++ child) = -1 := by
  have h := strcmppathsep_append_left dir [] ([pathsep] ++ child) hd
  rw [List.append_nil, ← List.append_assoc] at h
  rw [h, strcmppathsep_nil_left]
  rfl

theorem strcmppathsep_sep_first (p s t : List Byte) (c : Byte) (hp : NulFree p)
    (hc : c ≠ pathsep) (h0 : c ≠ 0) :
    strcmppathsep (p ++ [pathsep] ++ s) (p ++ c :: t) = -1 := by
  rw [List.append_assoc, strcmppathsep_append_left _ _ _ hp]
  rw [List.singleton_append, strcmppathsep_cons_cons,
    if_neg (fun h => hc h.1.symm)]
  unfold decideAt
  rw [if_neg (fun h => hc h.1), if_neg (fun h => h0 h.2), if_pos rfl]

/-! ## The insertion sort -/

theorem swapStep_length (l : List agedu_t) (d : Nat) (p1 p2 : agedu_t) :
    (swapStep l d p1 p2).length = l.length := by
  simp [swapStep]

theorem swapStep_getElem_opt (l : List agedu_t) (d k : Nat) (p1 p2 : agedu_t)
    (h1 : l[d]? = some p1) (h2 : l[d + 1]? = some p2) :
    (swapStep l (d + 1) p1 p2)[k]? =
      if k = d then some { p1 with sz := p2.sz, path := p2.path }
      else if k = d + 1 then some { p2 with sz := p1.sz, path := p1.path }
      else l[k]? := by
  have hd : d < l.length := (List.getElem?_eq_some_iff.1 h1).1
  have hd1 : d + 1 < l.length := (List.getElem?_eq_some_iff.1 h2).1
  unfold swapStep
  simp only [Nat.add_sub_cancel, List.getElem?_set, List.length_set]
  by_cases hk : k = d
  · subst hk
    simp [hd]
  · by_cases hk1 : k = d + 1
    · subst hk1
      simp [hd1]
    · have e1 : ¬d = k := fun e => hk e.symm
      have e2 : ¬d + 1 = k := fun e => hk1 e.symm
      simp [hk, hk1, e1, e2]

theorem pathAt_swapStep (l : List agedu_t) (d k : Nat) (p1 p2 : agedu_t)
    (h1 : l[d]? = some p1) (h2 : l[d + 1]? = some p2) :
    pathAt (swapStep l (d + 1) p1 p2) k =
      if k = d then pathAt l (d + 1)
      else if k = d + 1 then pathAt l d
      else pathAt l k := by
  unfold pathAt
  rw [swapStep_getElem_opt l d k p1 p2 h1 h2]
  by_cases hk : k = d
  · simp [hk, h2]
  · by_cases hk1 : k = d + 1
    · simp [hk1, h1]
    · simp [hk, hk1]

theorem whileLoop_succ (l : List agedu_t) (d : Nat) (p1 p2 : agedu_t)
    (h1 : l[d]? = some p1) (h2 : l[d + 1]? = some p2) :
    whileLoop l (d + 1) =
      if compareentries p1 p2 > 0 then whileLoop (swapStep l (d + 1) p1 p2) d
      else some l := by
  rw [whileLoop]
  simp only [h1, h2]

/-- The inner loop, entered at `d <= c` with the records at `0 .. c` sorted
apart from the one at `d`, which sorts strictly before those after it, brings
the records at `0 .. c` in order. -/
theorem whileLoop_sorted (c : Nat) : ∀ (d : Nat) (l : List agedu_t), d ≤ c → c < l.length →
    (∀ i j, i < j → j ≤ c → i ≠ d → j ≠ d → LeAt l i j) →
    (∀ j, d < j → j ≤ c → LtAt l d j) →
    ∃ out, whileLoop l d = some out ∧ out.length = l.length ∧ SortedUpTo out (c + 1) := by
  intro d
  induction d with
  | zero =>
    intro l _ _ ha hb
    refine ⟨l, rfl, rfl, ?_⟩
    intro i j hij hj
    by_cases hi : i = 0
    · subst hi
      intro p q hp hq
      exact le_of_lt (hb j hij (by omega) p q hp hq)
    · exact ha i j hij (by omega) hi (by omega)
  | succ d ih =>
    intro l hdc hc ha hb
    have hd1 : d + 1 < l.length := by omega
    have hd : d < l.length := by omega
    have h1 : l[d]? = some l[d] := List.getElem?_eq_getElem hd
    have h2 : l[d + 1]? = some l[d + 1] := List.getElem?_eq_getElem hd1
    have e1 : pathAt l d = some l[d].path := by simp [pathAt, h1]
    have e2 : pathAt l (d + 1) = some l[d + 1].path := by simp [pathAt, h2]
    rw [whileLoop_succ l d _ _ h1 h2]
    by_cases hcmp : compareentries l[d] l[d + 1] > 0
    · rw [if_pos hcmp]
      have hlen := swapStep_length l (d + 1) l[d] l[d + 1]
      have hpa := fun k => pathAt_swapStep l d k l[d] l[d + 1] h1 h2
      obtain ⟨out, ho, hl, hs⟩ := ih (swapStep l (d + 1) l[d] l[d + 1]) (by omega)
        (by omega)
        (by
          intro i j hij hj hi hjd p q hp hq
          rw [hpa i, if_neg hi] at hp
          rw [hpa j, if_neg hjd] at hq
          by_cases hi1 : i = d + 1
          · rw [if_pos hi1] at hp
            have hj1 : j ≠ d + 1 := by omega
            rw [if_neg hj1] at hq
            exact ha d j (by omega) hj (by omega) hj1 p q hp hq
          · rw [if_neg hi1] at hp
            by_cases hj1 : j = d + 1
            · rw [if_pos hj1] at hq
              exact ha i d (by omega) (by omega) hi1 (by omega) p q hp hq
            · rw [if_neg hj1] at hq
              exact ha i j hij hj hi1 hj1 p q hp hq)
        (by
          intro j hdj hj p q hp hq
          rw [hpa d, if_pos rfl, e2] at hp
          have hj0 : j ≠ d := by omega
          rw [hpa j, if_neg hj0] at hq
          cases hp
          by_cases hj1 : j = d + 1
          · rw [if_pos hj1, e1] at hq
            cases hq
            have hsw := strcmppathsep_neg_swap l[d + 1].path l[d].path
            unfold compareentries at hcmp
            omega
          · rw [if_neg hj1] at hq
            exact hb j (by omega) hj _ q e2 hq)
      exact ⟨out, ho, by rw [hl, hlen], hs⟩
    · rw [if_neg hcmp]
      refine ⟨l, rfl, rfl, ?_⟩
      have hle : strcmppathsep l[d].path l[d + 1].path ≤ 0 := by
        unfold compareentries at hcmp
        omega
      intro i j hij hj p q hp hq
      by_cases hi1 : i = d + 1
      · subst hi1
        exact le_of_lt (hb j hij (by omega) p q hp hq)
      · by_cases hj1 : j = d + 1
        · subst hj1
          rw [e2] at hq
          cases hq
          by_cases hid : i = d
          · subst hid
            rw [e1] at hp
            cases hp
            exact hle
          · have h3 := ha i d (by omega) (by omega) hi1 (by omega) p _ hp e1
            exact strcmppathsep_le_trans _ _ _ h3 hle
        · exact ha i j hij (by omega) hi1 hj1 p q hp hq

theorem forLoop_sorted : ∀ (k c : Nat) (l : List agedu_t), c + k = l.length →
    SortedUpTo l c →
    ∃ out, forLoop l c k = some out ∧ out.length = l.length ∧ SortedUpTo out (c + k) := by
  intro k
  induction k with
  | zero =>
    intro c l _ hs
    exact ⟨l, rfl, rfl, hs⟩
  | succ k ih =>
    intro c l hck hs
    obtain ⟨mid, hm, hml, hms⟩ := whileLoop_sorted c c l (le_refl c) (by omega)
      (fun i j hij hj _ hjc => hs i j hij (by omega))
      (fun j hcj hj => absurd hcj (by omega))
    obtain ⟨out, ho, hol, hos⟩ := ih (c + 1) mid (by omega) hms
    refine ⟨out, ?_, by rw [hol, hml], ?_⟩
    · rw [forLoop, hm]
      exact ho
    · have e : c + (k + 1) = c + 1 + k := by omega
      rw [e]
      exact hos

theorem pathAt_eq (l : List agedu_t) (i : Nat) (h : i < l.length) :
    pathAt l i = some l[i].path := by
  simp [pathAt, List.getElem?_eq_getElem h]

theorem sortedByPath_of_sortedUpTo (l : List agedu_t)
    (h : SortedUpTo l l.length) : SortedByPath l := by
  unfold SortedByPath paths
  rw [List.pairwise_iff_getElem]
  intro i j hi hj hij
  simp only [List.length_map] at hi hj
  simp only [List.getElem_map]
  exact h i j hij hj _ _ (pathAt_eq l i hi) (pathAt_eq l j hj)

theorem sortedUpTo_of_sortedByPath (l : List agedu_t) (n : Nat)
    (h : SortedByPath l) : SortedUpTo l n := by
  unfold SortedByPath paths at h
  rw [List.pairwise_iff_getElem] at h
  intro i j hij _ p q hp hq
  unfold pathAt at hp hq
  cases hi : l[i]? with
  | none => simp [hi] at hp
  | some x =>
    cases hj : l[j]? with
    | none => simp [hj] at hq
    | some y =>
      obtain ⟨hil, hix⟩ := List.getElem?_eq_some_iff.1 hi
      obtain ⟨hjl, hjy⟩ := List.getElem?_eq_some_iff.1 hj
      have := h i j (by simpa using hil) (by simpa using hjl) hij
      simp only [List.getElem_map] at this
      simp only [hi, hj, Option.map_some', Option.some.injEq] at hp hq
      rw [← hp, ← hq, ← hix, ← hjy]
      exact this

theorem insert_sort_sorted (l : List agedu_t) :
    ∃ out, insert_sort l l.length = some out ∧ out.length = l.length ∧ SortedByPath out := by
  unfold insert_sort
  by_cases h0 : l.length = 0
  · refine ⟨l, ?_, rfl, ?_⟩
    · simp [h0, forLoop]
    · apply sortedByPath_of_sortedUpTo
      intro i j _ hj
      omega
  · have hk : ((l.length : Int) - 1).toNat = l.length - 1 := by omega
    rw [hk]
    obtain ⟨out, ho, hol, hos⟩ := forLoop_sorted (l.length - 1) 1 l (by omega)
      (fun i j hij hj => absurd hij (by omega))
    refine ⟨out, ho, hol, ?_⟩
    apply sortedByPath_of_sortedUpTo
    have e : 1 + (l.length - 1) = out.length := by omega
    rw [← e]
    exact hos

theorem whileLoop_of_sorted (l : List agedu_t) (c : Nat) (hc : c < l.length)
    (h : SortedUpTo l (c + 1)) : whileLoop l c = some l := by
  cases c with
  | zero => rfl
  | succ d =>
    have hd : d < l.length := by omega
    rw [whileLoop_succ l d l[d] l[d + 1] (List.getElem?_eq_getElem hd)
      (List.getElem?_eq_getElem hc)]
    have hle := h d (d + 1) (by omega) (by omega) _ _ (pathAt_eq l d hd)
      (pathAt_eq l (d + 1) hc)
    have hn : ¬compareentries l[d] l[d + 1] > 0 := by
      unfold compareentries
      omega
    rw [if_neg hn]

theorem forLoop_of_sorted : ∀ (k c : Nat) (l : List agedu_t), c + k ≤ l.length →
    SortedUpTo l l.length → forLoop l c k = some l := by
  intro k
  induction k with
  | zero =>
    intro c l _ _
    rfl
  | succ k ih =>
    intro c l hck hs
    rw [forLoop, whileLoop_of_sorted l c (by omega)
      (fun i j hij hj => hs i j hij (by omega))]
    exact ih (c + 1) l (by omega) hs

theorem insert_sort_of_sorted (l : List agedu_t) (h : SortedByPath l) :
    insert_sort l l.length = some l := by
  unfold insert_sort
  by_cases h0 : l.length = 0
  · simp [h0, forLoop]
  · have hk : ((l.length : Int) - 1).toNat = l.length - 1 := by omega
    rw [hk]
    exact forLoop_of_sorted (l.length - 1) 1 l (by omega)
      (sortedUpTo_of_sortedByPath l l.length h)

theorem set_set_perm {α : Type} : ∀ (m : List α) (d : Nat) (a b : α),
    m[d]? = some a → m[d + 1]? = some b → ((m.set (d + 1) a).set d b).Perm m := by
  intro m
  induction m with
  | nil =>
    intro d a b h _
    simp at h
  | cons x m ih =>
    intro d a b h1 h2
    cases d with
    | zero =>
      cases m with
      | nil => simp at h2
      | cons y m =>
        simp only [List.getElem?_cons_zero, Option.some.injEq, zero_add,
          List.getElem?_cons_succ] at h1 h2
        subst h1
        subst h2
        exact List.Perm.swap _ _ _
    | succ d =>
      simp only [List.getElem?_cons_succ] at h1 h2
      simp only [List.set_cons_succ]
      exact List.Perm.cons x (ih d a b h1 h2)

theorem swapStep_perm (l : List agedu_t) (d : Nat) (p1 p2 : agedu_t)
    (h1 : l[d]? = some p1) (h2 : l[d + 1]? = some p2) :
    ((swapStep l (d + 1) p1 p2).map keyOf).Perm (l.map keyOf) := by
  unfold swapStep
  simp only [Nat.add_sub_cancel, List.map_set]
  exact set_set_perm (l.map keyOf) d (keyOf p1) (keyOf p2)
    (by simp [h1]) (by simp [h2])

theorem whileLoop_perm : ∀ (d : Nat) (l out : List agedu_t), whileLoop l d = some out →
    (out.map keyOf).Perm (l.map keyOf) := by
  intro d
  induction d with
  | zero =>
    intro l out h
    simp only [whileLoop, Option.some.injEq] at h
    rw [h]
  | succ d ih =>
    intro l out h
    rw [whileLoop] at h
    cases h1 : l[d]? with
    | none => simp [h1] at h
    | some p1 =>
      cases h2 : l[d + 1]? with
      | none => simp [h1, h2] at h
      | some p2 =>
        simp only [h1, h2] at h
        by_cases hc : compareentries p1 p2 > 0
        · rw [if_pos hc] at h
          exact (ih _ out h).trans (swapStep_perm l d p1 p2 h1 h2)
        · rw [if_neg hc] at h
          simp only [Option.some.injEq] at h
          rw [h]

theorem forLoop_perm : ∀ (k c : Nat) (l out : List agedu_t), forLoop l c k = some out →
    (out.map keyOf).Perm (l.map keyOf) := by
  intro k
  induction k with
  | zero =>
    intro c l out h
    simp only [forLoop, Option.some.injEq] at h
    rw [h]
  | succ k ih =>
    intro c l out h
    rw [forLoop] at h
    cases hm : whileLoop l c with
    | none => simp [hm] at h
    | some mid =>
      simp only [hm] at h
      exact (ih (c + 1) mid out h).trans (whileLoop_perm c l mid hm)

theorem insert_sort_perm (l out : List agedu_t) (nel : Int)
    (h : insert_sort l nel = some out) : (out.map keyOf).Perm (l.map keyOf) :=
  forLoop_perm _ 1 l out h

theorem insert_sort_path_mem (l out : List agedu_t) (nel : Int)
    (h : insert_sort l nel = some out) (r : agedu_t) (hr : r ∈ out) :
    ∃ r0 ∈ l, r0.path = r.path := by
  have hp := insert_sort_perm l out nel h
  have hm : keyOf r ∈ l.map keyOf := hp.subset (List.mem_map_of_mem keyOf hr)
  obtain ⟨r0, hr0, he⟩ := List.mem_map.1 hm
  refine ⟨r0, hr0, ?_⟩
  have := congrArg Prod.snd he
  exact this

/-! ## Clustering of a directory with its descendants -/

theorem no_path_between (d : List Byte) : ∀ (s x : List Byte), NulFree d → x ≠ d →
    ¬(d ++ [pathsep]) <+: x →
    ¬(strcmppathsep d x < 0 ∧ strcmppathsep x (d ++ [pathsep] ++ s) < 0) := by
  induction d with
  | nil =>
    intro s x _ hx hpre ⟨h1, h2⟩
    cases x with
    | nil => exact hx rfl
    | cons y x =>
      have hy : y ≠ pathsep := by
        intro e
        apply hpre
        rw [e]
        exact ⟨x, rfl⟩
      rw [strcmppathsep_nil_left, decideAt_neg_iff _ _ (fun h => h.2 rfl)] at h1
      simp only [List.nil_append, List.singleton_append] at h2
      rw [strcmppathsep_cons_cons, if_neg (fun h => hy h.1),
        decideAt_neg_iff _ _ (fun h => hy h.1)] at h2
      have hr : rank pathsep = 1 := rfl
      have h0 : rank 0 = 0 := rfl
      simp only [deref] at h1
      omega
  | cons c d ih =>
    intro s x hd hx hpre ⟨h1, h2⟩
    have hc : c ≠ 0 := hd c (List.mem_cons_self c d)
    have hd2 : NulFree d := fun z hz => hd z (List.mem_cons_of_mem c hz)
    cases x with
    | nil =>
      rw [strcmppathsep_nil_right, decideAt_neg_iff _ _ (fun h => h.2 h.1)] at h1
      have h0 : rank 0 = 0 := rfl
      omega
    | cons y x =>
      simp only [List.cons_append] at h2
      rw [strcmppathsep_cons_cons] at h1 h2
      by_cases hy : y = c
      · subst hy
        simp only [hc, ne_eq, not_false_eq_true, and_self, if_true] at h1 h2
        apply ih s x hd2 (fun e => hx (by rw [e])) _ ⟨h1, by simpa using h2⟩
        intro hp
        apply hpre
        obtain ⟨t, ht⟩ := hp
        exact ⟨t, by simp [← ht]⟩
      · have n1 : ¬(c = y ∧ c ≠ 0) := fun h => hy h.1.symm
        have n2 : ¬(y = c ∧ y ≠ 0) := fun h => hy h.1
        rw [if_neg n1, decideAt_neg_iff _ _ n1] at h1
        rw [if_neg n2, decideAt_neg_iff _ _ n2] at h2
        omega

/-! ## Paths without a separator: plain byte order -/

theorem rank_of_plain (x : Byte) (h0 : x ≠ 0) (hs : x ≠ pathsep) : rank x = x.val + 1 := by
  simp [rank, h0, hs]

theorem strcmppathsep_neg_iff_lex (a : List Byte) : ∀ (b : List Byte), NulFree a →
    NulFree b → pathsep ∉ a → pathsep ∉ b →
    (strcmppathsep a b < 0 ↔ List.Lex (· < ·) a b) := by
  induction a with
  | nil =>
    intro b _ hb _ hsb
    cases b with
    | nil =>
      rw [strcmppathsep_self]
      simp [List.Lex.not_nil_right]
    | cons y b =>
      have hy : y ≠ 0 := hb y (List.mem_cons_self y b)
      rw [strcmppathsep_nil_left, decideAt_neg_iff _ _ (fun h => h.2 rfl)]
      have hr : rank y ≠ 0 := fun h => hy ((rank_eq_zero_iff y).1 h)
      have h0 : rank 0 = 0 := rfl
      simp only [deref, h0, Nat.pos_of_ne_zero hr, true_iff]
      exact List.Lex.nil
  | cons x a ih =>
    intro b ha hb hsa hsb
    have hx : x ≠ 0 := ha x (List.mem_cons_self x a)
    have hxs : x ≠ pathsep := fun e => hsa (e ▸ List.mem_cons_self x a)
    cases b with
    | nil =>
      rw [strcmppathsep_nil_right, decideAt_neg_iff _ _ (fun h => h.2 h.1)]
      have h0 : rank 0 = 0 := rfl
      simp [h0, List.Lex.not_nil_right]
    | cons y b =>
      have hy : y ≠ 0 := hb y (List.mem_cons_self y b)
      have hys : y ≠ pathsep := fun e => hsb (e ▸ List.mem_cons_self y b)
      rw [strcmppathsep_cons_cons]
      by_cases hxy : x = y
      · subst hxy
        simp only [hx, ne_eq, not_false_eq_true, and_self, if_true]
        rw [List.Lex.cons_iff]
        exact ih b (fun c hc => ha c (List.mem_cons_of_mem x hc))
          (fun c hc => hb c (List.mem_cons_of_mem x hc))
          (fun hc => hsa (List.mem_cons_of_mem x hc))
          (fun hc => hsb (List.mem_cons_of_mem x hc))
      · have n1 : ¬(x = y ∧ x ≠ 0) := fun h => hxy h.1
        rw [if_neg n1, decideAt_neg_iff x y n1, rank_of_plain x hx hxs,
          rank_of_plain y hy hys, lex_cons_of_ne hxy]
        constructor
        · intro h
          exact Fin.lt_def.2 (by omega)
        · intro h
          have := Fin.lt_def.1 h
          omega

theorem strcmppathsep_first_difference (p a b : List Byte) (hp : NulFree p)
    (hd : deref a ≠ deref b) (ha : deref a ≠ pathsep) (hb : deref b ≠ pathsep) :
    strcmppathsep (p ++ a) (p ++ b) = ((deref a).val : Int) - ((deref b).val : Int) := by
  rw [strcmppathsep_append_left p a b hp, strcmppathsep_of_stop a b (fun h => hd h.1)]
  unfold decideAt
  rw [if_neg (fun h => hb h.1), if_neg (fun h => ha h.1), if_neg ha, if_neg hb]

theorem strcmppathsep_high_after_low (p s t : List Byte) (lo hi : Byte) (hp : NulFree p)
    (hlo : lo.val < 128) (hhi : 128 ≤ hi.val) :
    strcmppathsep (p ++ lo :: s) (p ++ hi :: t) < 0 := by
  have hne : ¬(lo = hi ∧ lo ≠ 0) := by
    intro h
    have := congrArg Fin.val h.1
    omega
  rw [strcmppathsep_append_left p _ _ hp, strcmppathsep_cons_cons, if_neg hne,
    decideAt_neg_iff lo hi hne]
  unfold rank pathsep
  simp only [Fin.ext_iff, val_pathsep, val_nul]
  split_ifs <;> omega

/-! ## Frame properties of the insertion sort -/

theorem set_self_of_getElem_opt {α : Type} : ∀ (m : List α) (i : Nat) (a : α),
    m[i]? = some a → m.set i a = m := by
  intro m
  induction m with
  | nil =>
    intro i a h
    simp at h
  | cons x m ih =>
    intro i a h
    cases i with
    | zero =>
      simp only [List.getElem?_cons_zero, Option.some.injEq] at h
      simp [h]
    | succ i =>
      simp only [List.getElem?_cons_succ] at h
      simp [ih i a h]

theorem swapStep_atime (l : List agedu_t) (d : Nat) (p1 p2 : agedu_t)
    (h1 : l[d]? = some p1) (h2 : l[d + 1]? = some p2) :
    (swapStep l (d + 1) p1 p2).map agedu_t.atime = l.map agedu_t.atime := by
  unfold swapStep
  simp only [Nat.add_sub_cancel, List.map_set]
  have e2 : (l.map agedu_t.atime).set (d + 1) p2.atime = l.map agedu_t.atime :=
    set_self_of_getElem_opt _ _ _ (by simp [h2])
  rw [e2]
  exact set_self_of_getElem_opt _ _ _ (by simp [h1])

theorem whileLoop_atime : ∀ (d : Nat) (l out : List agedu_t), whileLoop l d = some out →
    out.map agedu_t.atime = l.map agedu_t.atime := by
  intro d
  induction d with
  | zero =>
    intro l out h
    simp only [whileLoop, Option.some.injEq] at h
    rw [h]
  | succ d ih =>
    intro l out h
    rw [whileLoop] at h
    cases h1 : l[d]? with
    | none => simp [h1] at h
    | some p1 =>
      cases h2 : l[d + 1]? with
      | none => simp [h1, h2] at h
      | some p2 =>
        simp only [h1, h2] at h
        by_cases hc : compareentries p1 p2 > 0
        · rw [if_pos hc] at h
          rw [ih _ out h, swapStep_atime l d p1 p2 h1 h2]
        · rw [if_neg hc] at h
          simp only [Option.some.injEq] at h
          rw [h]

theorem forLoop_atime : ∀ (k c : Nat) (l out : List agedu_t), forLoop l c k = some out →
    out.map agedu_t.atime = l.map agedu_t.atime := by
  intro k
  induction k with
  | zero =>
    intro c l out h
    simp only [forLoop, Option.some.injEq] at h
    rw [h]
  | succ k ih =>
    intro c l out h
    rw [forLoop] at h
    cases hm : whileLoop l c with
    | none => simp [hm] at h
    | some mid =>
      simp only [hm] at h
      rw [ih (c + 1) mid out h, whileLoop_atime c l mid hm]

theorem swapStep_append (l extra : List agedu_t) (d : Nat) (p1 p2 : agedu_t)
    (hd : d + 1 < l.length) :
    swapStep (l ++ extra) (d + 1) p1 p2 = swapStep l (d + 1) p1 p2 ++ extra := by
  unfold swapStep
  simp only [Nat.add_sub_cancel]
  rw [List.set_append_left _ _ hd, List.set_append_left _ _ (by simp; omega)]

theorem whileLoop_append : ∀ (d : Nat) (l extra out : List agedu_t),
    whileLoop l d = some out → whileLoop (l ++ extra) d = some (out ++ extra) := by
  intro d
  induction d with
  | zero =>
    intro l extra out h
    simp only [whileLoop, Option.some.injEq] at h
    rw [h, whileLoop]
  | succ d ih =>
    intro l extra out h
    rw [whileLoop] at h
    cases h1 : l[d]? with
    | none => simp [h1] at h
    | some p1 =>
      cases h2 : l[d + 1]? with
      | none => simp [h1, h2] at h
      | some p2 =>
        simp only [h1, h2] at h
        have hd1 : d + 1 < l.length := (List.getElem?_eq_some_iff.1 h2).1
        have e1 : (l ++ extra)[d]? = some p1 := by
          rw [List.getElem?_append_left (by omega)]
          exact h1
        have e2 : (l ++ extra)[d + 1]? = some p2 := by
          rw [List.getElem?_append_left hd1]
          exact h2
        rw [whileLoop_succ (l ++ extra) d p1 p2 e1 e2]
        by_cases hc : compareentries p1 p2 > 0
        · rw [if_pos hc] at h ⊢
          rw [swapStep_append l extra d p1 p2 hd1]
          exact ih _ extra out h
        · rw [if_neg hc] at h ⊢
          simp only [Option.some.injEq] at h
          rw [h]

theorem forLoop_append : ∀ (k c : Nat) (l extra out : List agedu_t),
    forLoop l c k = some out → forLoop (l ++ extra) c k = some (out ++ extra) := by
  intro k
  induction k with
  | zero =>
    intro c l extra out h
    simp only [forLoop, Option.some.injEq] at h
    rw [h, forLoop]
  | succ k ih =>
    intro c l extra out h
    rw [forLoop] at h
    cases hm : whileLoop l c with
    | none => simp [hm] at h
    | some mid =>
      simp only [hm] at h
      rw [forLoop, whileLoop_append c l extra mid hm]
      exact ih (c + 1) mid extra out h

/-! ## Stability of the insertion sort -/

theorem filter_set_set {α : Type} (P : α → Bool) : ∀ (m : List α) (d : Nat) (a b : α),
    m[d]? = some a → m[d + 1]? = some b → ¬(P a = true ∧ P b = true) →
    ((m.set (d + 1) a).set d b).filter P = m.filter P := by
  intro m
  induction m with
  | nil =>
    intro d a b h _ _
    simp at h
  | cons x m ih =>
    intro d a b h1 h2 hP
    cases d with
    | zero =>
      cases m with
      | nil => simp at h2
      | cons y m =>
        simp only [List.getElem?_cons_zero, Option.some.injEq, zero_add,
          List.getElem?_cons_succ] at h1 h2
        subst h1
        subst h2
        simp only [List.set_cons_succ, List.set_cons_zero, List.filter_cons]
        cases hx : P x <;> cases hy : P y <;> simp_all
    | succ d =>
      simp only [List.getElem?_cons_succ] at h1 h2
      simp only [List.set_cons_succ, List.filter_cons]
      rw [ih d a b h1 h2 hP]

theorem swapStep_filter (p : List Byte) (l : List agedu_t) (d : Nat) (p1 p2 : agedu_t)
    (h1 : l[d]? = some p1) (h2 : l[d + 1]? = some p2) (hc : compareentries p1 p2 > 0) :
    ((swapStep l (d + 1) p1 p2).map keyOf).filter (fun k => decide (strcmppathsep k.2 p = 0)) =
      (l.map keyOf).filter (fun k => decide (strcmppathsep k.2 p = 0)) := by
  unfold swapStep
  simp only [Nat.add_sub_cancel, List.map_set]
  apply filter_set_set _ (l.map keyOf) d (keyOf p1) (keyOf p2) (by simp [h1]) (by simp [h2])
  intro hh
  simp only [keyOf, decide_eq_true_eq] at hh
  have e1 := (strcmppathsep_eq_zero_iff p1.path p).1 hh.1
  have e2 := (strcmppathsep_eq_zero_iff p2.path p).1 hh.2
  have e3 := (strcmppathsep_eq_zero_iff p1.path p2.path).2 (e1.trans e2.symm)
  unfold compareentries at hc
  omega

theorem whileLoop_filter (p : List Byte) : ∀ (d : Nat) (l out : List agedu_t),
    whileLoop l d = some out →
    (out.map keyOf).filter (fun k => decide (strcmppathsep k.2 p = 0)) =
      (l.map keyOf).filter (fun k => decide (strcmppathsep k.2 p = 0)) := by
  intro d
  induction d with
  | zero =>
    intro l out h
    simp only [whileLoop, Option.some.injEq] at h
    rw [h]
  | succ d ih =>
    intro l out h
    rw [whileLoop] at h
    cases h1 : l[d]? with
    | none => simp [h1] at h
    | some p1 =>
      cases h2 : l[d + 1]? with
      | none => simp [h1, h2] at h
      | some p2 =>
        simp only [h1, h2] at h
        by_cases hc : compareentries p1 p2 > 0
        · rw [if_pos hc] at h
          rw [ih _ out h, swapStep_filter p l d p1 p2 h1 h2 hc]
        · rw [if_neg hc] at h
          simp only [Option.some.injEq] at h
          rw [h]

theorem forLoop_filter (p : List Byte) : ∀ (k c : Nat) (l out : List agedu_t),
    forLoop l c k = some out →
    (out.map keyOf).filter (fun k => decide (strcmppathsep k.2 p = 0)) =
      (l.map keyOf).filter (fun k => decide (strcmppathsep k.2 p = 0)) := by
  intro k
  induction k with
  | zero =>
    intro c l out h
    simp only [forLoop, Option.some.injEq] at h
    rw [h]
  | succ k ih =>
    intro c l out h
    rw [forLoop] at h
    cases hm : whileLoop l c with
    | none => simp [hm] at h
    | some mid =>
      simp only [hm] at h
      rw [ih (c + 1) mid out h, whileLoop_filter p c l mid hm]

/-! ## The parser on a sequence of lines -/

theorem scan_append (c : Byte) (t : List Byte) : ∀ (s : List Byte) (i : Nat),
    (∀ x ∈ s, x ≠ c ∧ x ≠ 0) → scan c (s ++ c :: t) i = some (some (i + s.length)) := by
  intro s
  induction s with
  | nil =>
    intro i _
    simp [scan]
  | cons x s ih =>
    intro i h
    have hx := h x (List.mem_cons_self x s)
    rw [List.cons_append, scan, if_neg hx.1, if_neg hx.2,
      ih (i + 1) (fun y hy => h y (List.mem_cons_of_mem x hy))]
    simp only [List.length_cons]
    congr 2
    omega

theorem drop_length_append {α : Type} (pre t : List α) (n : Nat) (h : n = pre.length) :
    (pre ++ t).drop n = t := by
  subst h
  exact List.drop_left pre t

theorem strchr_found (pre s t : List Byte) (c : Byte) (p : Nat) (hp : p = pre.length)
    (h : ∀ x ∈ s, x ≠ c ∧ x ≠ 0) :
    strchr (pre ++ (s ++ c :: t)) p c = some (some (p + s.length)) := by
  unfold strchr
  rw [drop_length_append pre _ p hp]
  exact scan_append c t s p h

theorem set_length_append {α : Type} (t : List α) (x y : α) : ∀ (pre : List α) (n : Nat),
    n = pre.length → (pre ++ x :: t).set n y = pre ++ y :: t := by
  intro pre
  induction pre with
  | nil =>
    intro n h
    subst h
    rfl
  | cons a pre ih =>
    intro n h
    subst h
    simp only [List.cons_append, List.length_cons, List.set_cons_succ]
    rw [ih pre.length rfl]

theorem cstrFrom_append (t : List Byte) : ∀ (s : List Byte), NulFree s →
    cstrFrom (s ++ 0 :: t) = some s := by
  intro s
  induction s with
  | nil =>
    intro _
    simp [cstrFrom]
  | cons x s ih =>
    intro h
    have hx : x ≠ 0 := h x (List.mem_cons_self x s)
    rw [List.cons_append, cstrFrom, if_neg hx,
      ih (fun y hy => h y (List.mem_cons_of_mem x hy))]
    rfl

theorem cstr_at (pre s t : List Byte) (p : Nat) (hp : p = pre.length) (h : NulFree s) :
    cstr (pre ++ (s ++ 0 :: t)) p = some s := by
  unfold cstr
  rw [drop_length_append pre _ p hp]
  exact cstrFrom_append t s h

theorem text_length (ln : Line) :
    ln.text.length = ln.size.length + 1 + ln.atime.length + 1 + ln.path.length := by
  simp only [Line.text, List.length_append, List.length_cons]
  omega

/-- One iteration of the parsing loop on a line the parser can split: the
record of the line is stored, its newline is overwritten, and `p` is behind
it. -/
theorem parseLoop_step (fuel : Nat) (pre rest : List Byte) (ln : Line)
    (rows : List agedu_ptr) (hp : ln.Parses) (hc : rows.length < capacity) :
    parseLoop (fuel + 1) (pre ++ (ln.text ++ newline :: rest)) pre.length rows =
      parseLoop fuel (pre ++ (ln.text ++ 0 :: rest)) (pre.length + ln.text.length + 1)
        (rows ++ [⟨pre.length, pre.length + ln.size.length + 1,
          pre.length + ln.size.length + 1 + ln.atime.length + 1⟩]) := by
  have e1 : pre ++ (ln.text ++ newline :: rest) =
      pre ++ (ln.size ++ space :: (ln.atime ++ space :: (ln.path ++ newline :: rest))) := by
    simp [Line.text]
  have e2 : pre ++ (ln.text ++ newline :: rest) =
      (pre ++ (ln.size ++ [space])) ++
        (ln.atime ++ space :: (ln.path ++ newline :: rest)) := by
    simp [Line.text]
  have e3 : pre ++ (ln.text ++ newline :: rest) =
      (pre ++ (ln.size ++ space :: (ln.atime ++ [space]))) ++
        (ln.path ++ newline :: rest) := by
    simp [Line.text]
  have e4 : pre ++ (ln.text ++ newline :: rest) = (pre ++ ln.text) ++ newline :: rest := by
    simp
  have h1 : strchr (pre ++ (ln.text ++ newline :: rest)) pre.length space =
      some (some (pre.length + ln.size.length)) := by
    rw [e1]
    exact strchr_found pre ln.size _ space _ rfl hp.1
  have h2 : strchr (pre ++ (ln.text ++ newline :: rest)) (pre.length + ln.size.length + 1)
      space = some (some (pre.length + ln.size.length + 1 + ln.atime.length)) := by
    rw [e2]
    exact strchr_found _ ln.atime _ space _ (by simp; omega) hp.2.1
  have h3 : strchr (pre ++ (ln.text ++ newline :: rest))
      (pre.length + ln.size.length + 1 + ln.atime.length + 1) newline =
      some (some (pre.length + ln.size.length + 1 + ln.atime.length + 1 + ln.path.length)) := by
    rw [e3]
    exact strchr_found _ ln.path _ newline _ (by simp; omega) hp.2.2
  have hlt : pre.length < (pre ++ (ln.text ++ newline :: rest)).length := by
    simp only [List.length_append, List.length_cons]
    omega
  have hset : (pre ++ (ln.text ++ newline :: rest)).set
      (pre.length + ln.size.length + 1 + ln.atime.length + 1 + ln.path.length) 0 =
      pre ++ (ln.text ++ 0 :: rest) := by
    rw [e4, set_length_append rest newline 0 (pre ++ ln.text) _
      (by rw [List.length_append, text_length]; omega)]
    simp
  have hidx : pre.length + ln.size.length + 1 + ln.atime.length + 1 + ln.path.length + 1 =
      pre.length + ln.text.length + 1 := by
    rw [text_length]
    omega
  rw [parseLoop, if_pos hlt, if_pos hc]
  simp only [h1, h2, h3, hset, hidx]

theorem parseLoop_lines : ∀ (lines : List Line) (fuel : Nat) (pre : List Byte)
    (rows : List agedu_ptr), (∀ ln ∈ lines, ln.Parses) → lines.length ≤ fuel →
    rows.length + lines.length ≤ capacity →
    parseLoop fuel (pre ++ dataText lines) pre.length rows =
      some (pre ++ dataTerminated lines, rows ++ rowsAt pre.length lines) := by
  intro lines
  induction lines with
  | nil =>
    intro fuel pre rows _ _ _
    have hn : ¬pre.length < (pre ++ dataText []).length := by simp [dataText]
    cases fuel with
    | zero =>
      rw [parseLoop, if_neg hn]
      simp [dataText, dataTerminated, rowsAt]
    | succ fuel =>
      rw [parseLoop, if_neg hn]
      simp [dataText, dataTerminated, rowsAt]
  | cons ln rest ih =>
    intro fuel pre rows hp hf hc
    cases fuel with
    | zero => simp at hf
    | succ fuel =>
      simp only [List.length_cons] at hf hc
      rw [dataText, parseLoop_step fuel pre (dataText rest) ln rows
        (hp ln (List.mem_cons_self ln rest)) (by omega)]
      have em : pre ++ (ln.text ++ 0 :: dataText rest) =
          (pre ++ (ln.text ++ [0])) ++ dataText rest := by simp
      have el : pre.length + ln.text.length + 1 = (pre ++ (ln.text ++ [0])).length := by
        simp only [List.length_append, List.length_cons, List.length_nil]
        omega
      rw [em, el, ih fuel _ _ (fun l hl => hp l (List.mem_cons_of_mem ln hl)) (by omega)
        (by simp only [List.length_append, List.length_cons, List.length_nil]; omega)]
      rw [← el]
      simp [dataTerminated, rowsAt]

theorem nulFree_of_parses (ln : Line) (hp : ln.Parses) :
    NulFree ln.text ∧ NulFree (ln.atime ++ space :: ln.path) ∧ NulFree ln.path := by
  have hs : space ≠ (0 : Byte) := by decide
  refine ⟨?_, ?_, fun c hc => (hp.2.2 c hc).2⟩
  · intro c hc
    simp only [Line.text, List.mem_append, List.mem_cons] at hc
    rcases hc with h | h | h | h | h
    · exact (hp.1 c h).2
    · exact h ▸ hs
    · exact (hp.2.1 c h).2
    · exact h ▸ hs
    · exact (hp.2.2 c h).2
  · intro c hc
    simp only [List.mem_append, List.mem_cons] at hc
    rcases hc with h | h | h
    · exact (hp.2.1 c h).2
    · exact h ▸ hs
    · exact (hp.2.2 c h).2

theorem load_line (pre rest : List Byte) (ln : Line) (hp : ln.Parses) :
    load (pre ++ (ln.text ++ 0 :: rest))
      ⟨pre.length, pre.length + ln.size.length + 1,
        pre.length + ln.size.length + 1 + ln.atime.length + 1⟩ = some (recordOf ln) := by
  obtain ⟨n1, n2, n3⟩ := nulFree_of_parses ln hp
  have e2 : pre ++ (ln.text ++ 0 :: rest) =
      (pre ++ (ln.size ++ [space])) ++ ((ln.atime ++ space :: ln.path) ++ 0 :: rest) := by
    simp [Line.text]
  have e3 : pre ++ (ln.text ++ 0 :: rest) =
      (pre ++ (ln.size ++ space :: (ln.atime ++ [space]))) ++ (ln.path ++ 0 :: rest) := by
    simp [Line.text]
  have h1 : cstr (pre ++ (ln.text ++ 0 :: rest)) pre.length = some ln.text :=
    cstr_at pre ln.text rest _ rfl n1
  have h2 : cstr (pre ++ (ln.text ++ 0 :: rest)) (pre.length + ln.size.length + 1) =
      some (ln.atime ++ space :: ln.path) := by
    have hl : pre.length + ln.size.length + 1 = (pre ++ (ln.size ++ [space])).length := by
      simp only [List.length_append, List.length_cons, List.length_nil]
      omega
    rw [e2]
    exact cstr_at _ _ rest _ hl n2
  have h3 : cstr (pre ++ (ln.text ++ 0 :: rest))
      (pre.length + ln.size.length + 1 + ln.atime.length + 1) = some ln.path := by
    have hl : pre.length + ln.size.length + 1 + ln.atime.length + 1 =
        (pre ++ (ln.size ++ space :: (ln.atime ++ [space]))).length := by
      simp only [List.length_append, List.length_cons, List.length_nil]
      omega
    rw [e3]
    exact cstr_at _ _ rest _ hl n3
  unfold load
  simp only [h1, h2, h3]
  rfl

theorem loadAll_lines : ∀ (lines : List Line) (pre : List Byte), (∀ ln ∈ lines, ln.Parses) →
    loadAll (pre ++ dataTerminated lines) (rowsAt pre.length lines) =
      some (lines.map recordOf) := by
  intro lines
  induction lines with
  | nil =>
    intro pre _
    rfl
  | cons ln rest ih =>
    intro pre hp
    have em : pre ++ (ln.text ++ 0 :: dataTerminated rest) =
        (pre ++ (ln.text ++ [0])) ++ dataTerminated rest := by simp
    have el : pre.length + ln.text.length + 1 = (pre ++ (ln.text ++ [0])).length := by
      simp only [List.length_append, List.length_cons, List.length_nil]
      omega
    have h1 := load_line pre (dataTerminated rest) ln (hp ln (List.mem_cons_self ln rest))
    have h2 := ih (pre ++ (ln.text ++ [0])) (fun l hl => hp l (List.mem_cons_of_mem ln hl))
    rw [← em, ← el] at h2
    simp only [dataTerminated, rowsAt, loadAll, h1, h2, List.map_cons]

theorem rowsAt_length : ∀ (lines : List Line) (p : Nat), (rowsAt p lines).length = lines.length := by
  intro lines
  induction lines with
  | nil =>
    intro p
    rfl
  | cons ln rest ih =>
    intro p
    simp [rowsAt, ih]

theorem dataText_length : ∀ (lines : List Line), lines.length ≤ (dataText lines).length := by
  intro lines
  induction lines with
  | nil => simp
  | cons ln rest ih =>
    simp only [dataText, List.length_cons, List.length_append]
    omega

theorem printLoop_eq : ∀ (k i : Nat) (l : List agedu_t), i + k = l.length →
    printLoop l i k = some (printed (l.drop i)) := by
  intro k
  induction k with
  | zero =>
    intro i l h
    have e : l.drop i = [] := List.drop_eq_nil_of_le (by omega)
    rw [e]
    rfl
  | succ k ih =>
    intro i l h
    have hi : i < l.length := by omega
    rw [printLoop, List.getElem?_eq_getElem hi, ih (i + 1) l (by omega),
      List.drop_eq_getElem_cons hi]
    rfl

theorem printsorted_eq (l : List agedu_t) :
    printsorted l l.length = some (printed l) := by
  unfold printsorted
  have e : ((l.length : Int)).toNat = l.length := by omega
  rw [e, printLoop_eq l.length 0 l (by omega)]
  rfl

/-- The parser on a file made of a header line and of lines it can split, at
most `capacity` of them: every line's newline is overwritten and the pointers
of every line are stored, in order. -/
theorem parse_fileOf (h : List Byte) (lines : List Line) (hh : HeaderOk h)
    (hp : ∀ ln ∈ lines, ln.Parses) (hc : lines.length ≤ capacity) :
    parse (fileOf h lines) =
      some (h ++ 0 :: dataTerminated lines, rowsAt (h.length + 1) lines) := by
  have h1 : strchr (fileOf h lines) 0 newline = some (some h.length) := by
    have := strchr_found [] h (dataText lines) newline 0 rfl (fun x hx => hh x hx)
    simpa [fileOf] using this
  have h2 : (fileOf h lines).set h.length 0 = (h ++ [0]) ++ dataText lines := by
    unfold fileOf
    rw [set_length_append (dataText lines) newline 0 h h.length rfl]
    simp
  have h3 : h.length + 1 = (h ++ [0]).length := by simp
  have hf : lines.length ≤ (fileOf h lines).length := by
    have := dataText_length lines
    simp only [fileOf, List.length_append, List.length_cons]
    omega
  have h4 := parseLoop_lines lines (fileOf h lines).length (h ++ [0]) [] hp hf
    (by simpa using hc)
  unfold parse
  simp only [h1, h2]
  rw [h3, h4]
  simp

/-- The run of `main` on a file made of a header line and of lines the parser
can split, at most `capacity` of them: the header, then the `sz` strings of
the records of the lines as `insert_sort` leaves them. -/
theorem main_fileOf (h : List Byte) (lines : List Line) (out : List agedu_t)
    (hh : HeaderOk h) (hp : ∀ ln ∈ lines, ln.Parses) (hc : lines.length ≤ capacity)
    (hs : insert_sort (lines.map recordOf) lines.length = some out) :
    main (fileOf h lines) = some (h ++ newline :: printed out) := by
  have hlen : (fileOf h lines).length ≠ 0 := by simp [fileOf]
  have h5 : cstr (h ++ 0 :: dataTerminated lines) 0 = some h :=
    cstr_at [] h (dataTerminated lines) 0 rfl (fun c hc => (hh c hc).2)
  have h6 : loadAll (h ++ 0 :: dataTerminated lines) (rowsAt (h.length + 1) lines) =
      some (lines.map recordOf) := by
    have := loadAll_lines lines (h ++ [0]) hp
    simpa using this
  have h7 : out.length = lines.length := by
    obtain ⟨o2, ho2, hl2, _⟩ := insert_sort_sorted (lines.map recordOf)
    rw [List.length_map] at ho2 hl2
    rw [hs] at ho2
    cases ho2
    exact hl2
  have h8 : printsorted out lines.length = some (printed out) := by
    rw [← h7]
    exact printsorted_eq out
  unfold main
  rw [if_neg hlen, parse_fileOf h lines hh hp hc]
  simp only [rowsAt_length, h5, h6, hs, h8]

theorem scan_ge (c : Byte) : ∀ (l : List Byte) (i j : Nat),
    scan c l i = some (some j) → i ≤ j := by
  intro l
  induction l with
  | nil =>
    intro i j h
    simp [scan] at h
  | cons x l ih =>
    intro i j h
    rw [scan] at h
    by_cases hx : x = c
    · rw [if_pos hx] at h
      simp only [Option.some.injEq] at h
      omega
    · rw [if_neg hx] at h
      by_cases h0 : x = 0
      · rw [if_pos h0] at h
        simp at h
      · rw [if_neg h0] at h
        have := ih (i + 1) j h
        omega

/-- The bound on the iterations of the parsing loop is never what ends it:
from the length of the mapping on, a larger bound gives the same result. -/
theorem parseLoop_fuel : ∀ (fuel : Nat) (mem : List Byte) (p : Nat) (rows : List agedu_ptr),
    mem.length ≤ p + fuel →
    parseLoop (fuel + 1) mem p rows = parseLoop fuel mem p rows := by
  intro fuel
  induction fuel with
  | zero =>
    intro mem p rows h
    have hn : ¬p < mem.length := by omega
    rw [parseLoop, parseLoop, if_neg hn, if_neg hn]
  | succ fuel ih =>
    intro mem p rows h
    rw [parseLoop]
    conv_rhs => rw [parseLoop]
    by_cases hlt : p < mem.length
    · rw [if_pos hlt, if_pos hlt]
      by_cases hcap : rows.length < capacity
      · rw [if_pos hcap, if_pos hcap]
        cases e1 : strchr mem p space with
        | none => rfl
        | some r1 =>
          cases r1 with
          | none => rfl
          | some i1 =>
            dsimp only
            cases e2 : strchr mem (i1 + 1) space with
            | none => rfl
            | some r2 =>
              cases r2 with
              | none => rfl
              | some i2 =>
                dsimp only
                cases e3 : strchr mem (i2 + 1) newline with
                | none => rfl
                | some r3 =>
                  cases r3 with
                  | none => rfl
                  | some i3 =>
                    dsimp only
                    have g1 := scan_ge space _ _ _ e1
                    have g2 := scan_ge space _ _ _ e2
                    have g3 := scan_ge newline _ _ _ e3
                    exact ih (mem.set i3 0) (i3 + 1) _ (by simp only [List.length_set]; omega)
      · rw [if_neg hcap, if_neg hcap]
    · rw [if_neg hlt, if_neg hlt]

theorem scan_none (c : Byte) : ∀ (s : List Byte) (i : Nat),
    (∀ x ∈ s, x ≠ c ∧ x ≠ 0) → scan c s i = none := by
  intro s
  induction s with
  | nil =>
    intro i _
    rfl
  | cons x s ih =>
    intro i h
    have hx := h x (List.mem_cons_self x s)
    rw [scan, if_neg hx.1, if_neg hx.2]
    exact ih (i + 1) (fun y hy => h y (List.mem_cons_of_mem x hy))

theorem strchr_none (pre s : List Byte) (c : Byte) (p : Nat) (hp : p = pre.length)
    (h : ∀ x ∈ s, x ≠ c ∧ x ≠ 0) : strchr (pre ++ s) p c = none := by
  unfold strchr
  rw [drop_length_append pre _ p hp]
  exact scan_none c s p h

/-! ## Lines the parser cannot split -/

theorem parseLoop_lines_then : ∀ (lines : List Line) (fuel : Nat) (pre tail : List Byte)
    (rows : List agedu_ptr), (∀ ln ∈ lines, ln.Parses) →
    rows.length + lines.length ≤ capacity →
    parseLoop (fuel + lines.length) (pre ++ (dataText lines ++ tail)) pre.length rows =
      parseLoop fuel (pre ++ (dataTerminated lines ++ tail))
        (pre.length + (dataText lines).length) (rows ++ rowsAt pre.length lines) := by
  intro lines
  induction lines with
  | nil =>
    intro fuel pre tail rows _ _
    simp [dataText, dataTerminated, rowsAt]
  | cons ln rest ih =>
    intro fuel pre tail rows hp hc
    simp only [List.length_cons] at hc
    have ef : fuel + (ln :: rest).length = (fuel + rest.length) + 1 := by
      simp only [List.length_cons]
      omega
    have em : pre ++ (dataText (ln :: rest) ++ tail) =
        pre ++ (ln.text ++ newline :: (dataText rest ++ tail)) := by
      simp [dataText]
    rw [ef, em, parseLoop_step _ pre _ ln rows (hp ln (List.mem_cons_self ln rest)) (by omega)]
    have em2 : pre ++ (ln.text ++ 0 :: (dataText rest ++ tail)) =
        (pre ++ (ln.text ++ [0])) ++ (dataText rest ++ tail) := by simp
    have el : pre.length + ln.text.length + 1 = (pre ++ (ln.text ++ [0])).length := by
      simp only [List.length_append, List.length_cons, List.length_nil]
      omega
    rw [em2, el, ih fuel _ tail _ (fun l hl => hp l (List.mem_cons_of_mem ln hl))
      (by simp only [List.length_append, List.length_cons, List.length_nil]; omega)]
    rw [← el]
    simp only [dataTerminated, dataText, rowsAt, List.length_append, List.length_cons,
      List.append_assoc, List.cons_append, List.nil_append]
    congr 1
    omega

theorem dataText_append : ∀ (a b : List Line), dataText (a ++ b) = dataText a ++ dataText b := by
  intro a
  induction a with
  | nil =>
    intro b
    rfl
  | cons ln a ih =>
    intro b
    simp [dataText, ih]

theorem dataTerminated_length : ∀ (a : List Line),
    (dataTerminated a).length = (dataText a).length := by
  intro a
  induction a with
  | nil => rfl
  | cons ln a ih => simp [dataTerminated, dataText, ih]

/-- The parser on a header line, lines it can split, and any text behind them:
the loop arrives at that text with the lines stored. -/
theorem parse_then (h tail : List Byte) (before : List Line) (k : Nat) (hh : HeaderOk h)
    (hp : ∀ ln ∈ before, ln.Parses) (hc : before.length ≤ capacity)
    (hk : (h ++ newline :: (dataText before ++ tail)).length = k + before.length) :
    parse (h ++ newline :: (dataText before ++ tail)) =
      parseLoop k ((h ++ 0 :: dataTerminated before) ++ tail)
        (h ++ 0 :: dataTerminated before).length (rowsAt (h.length + 1) before) := by
  have h1 : strchr (h ++ newline :: (dataText before ++ tail)) 0 newline =
      some (some h.length) := by
    have := strchr_found [] h (dataText before ++ tail) newline 0 rfl (fun x hx => hh x hx)
    simpa using this
  have h2 : (h ++ newline :: (dataText before ++ tail)).set h.length 0 =
      (h ++ [0]) ++ (dataText before ++ tail) := by
    rw [set_length_append _ newline 0 h h.length rfl]
    simp
  have h3 : h.length + 1 = (h ++ [0]).length := by simp
  unfold parse
  simp only [h1, h2]
  rw [hk, h3, parseLoop_lines_then before k (h ++ [0]) tail [] hp (by simpa using hc)]
  have e1 : (h ++ [0]) ++ (dataTerminated before ++ tail) =
      (h ++ 0 :: dataTerminated before) ++ tail := by simp
  have e2 : (h ++ [0]).length + (dataText before).length =
      (h ++ 0 :: dataTerminated before).length := by
    simp only [List.length_append, List.length_cons, List.length_nil, dataTerminated_length]
    omega
  rw [e1, e2]
  simp

/-- A last line without any space: the first `strchr` of its iteration reads
past the mapping. -/
theorem parse_no_space_last (h s : List Byte) (before : List Line) (hh : HeaderOk h)
    (hp : ∀ ln ∈ before, ln.Parses) (hc : before.length + 1 ≤ capacity)
    (hs : ∀ c ∈ s, c ≠ space ∧ c ≠ 0) :
    parse (h ++ newline :: (dataText before ++ (s ++ [newline]))) = none := by
  have hl := dataText_length before
  obtain ⟨k, hk⟩ : ∃ k, (h ++ newline :: (dataText before ++ (s ++ [newline]))).length =
      (k + 1) + before.length :=
    ⟨h.length + (dataText before).length + s.length + 1 - before.length, by
      simp only [List.length_append, List.length_cons, List.length_nil]
      omega⟩
  rw [parse_then h _ before (k + 1) hh hp (by omega) hk, parseLoop]
  have hlt : (h ++ 0 :: dataTerminated before).length <
      ((h ++ 0 :: dataTerminated before) ++ (s ++ [newline])).length := by
    simp only [List.length_append, List.length_cons, List.length_nil]
    omega
  have hn : strchr ((h ++ 0 :: dataTerminated before) ++ (s ++ [newline]))
      (h ++ 0 :: dataTerminated before).length space = none := by
    apply strchr_none _ _ space _ rfl
    intro x hx
    simp only [List.mem_append, List.mem_singleton] at hx
    rcases hx with hx | hx
    · exact hs x hx
    · rw [hx]
      decide
  rw [if_pos hlt, if_pos (by rw [rowsAt_length]; omega), hn]

/-- A last line with one space only: the second `strchr` of its iteration
reads past the mapping. -/
theorem parse_one_space_last (h s f : List Byte) (before : List Line) (hh : HeaderOk h)
    (hp : ∀ ln ∈ before, ln.Parses) (hc : before.length + 1 ≤ capacity)
    (hs : ∀ c ∈ s, c ≠ space ∧ c ≠ 0) (hf : ∀ c ∈ f, c ≠ space ∧ c ≠ 0) :
    parse (h ++ newline :: (dataText before ++ (s ++ space :: (f ++ [newline])))) = none := by
  have hl := dataText_length before
  obtain ⟨k, hk⟩ : ∃ k,
      (h ++ newline :: (dataText before ++ (s ++ space :: (f ++ [newline])))).length =
        (k + 1) + before.length :=
    ⟨h.length + (dataText before).length + s.length + f.length + 2 - before.length, by
      simp only [List.length_append, List.length_cons, List.length_nil]
      omega⟩
  rw [parse_then h _ before (k + 1) hh hp (by omega) hk, parseLoop]
  have hlt : (h ++ 0 :: dataTerminated before).length <
      ((h ++ 0 :: dataTerminated before) ++ (s ++ space :: (f ++ [newline]))).length := by
    simp only [List.length_append, List.length_cons, List.length_nil]
    omega
  have h1 : strchr ((h ++ 0 :: dataTerminated before) ++ (s ++ space :: (f ++ [newline])))
      (h ++ 0 :: dataTerminated before).length space =
      some (some ((h ++ 0 :: dataTerminated before).length + s.length)) :=
    strchr_found _ s _ space _ rfl hs
  have e2 : (h ++ 0 :: dataTerminated before) ++ (s ++ space :: (f ++ [newline])) =
      ((h ++ 0 :: dataTerminated before) ++ (s ++ [space])) ++ (f ++ [newline]) := by simp
  have h2 : strchr ((h ++ 0 :: dataTerminated before) ++ (s ++ space :: (f ++ [newline])))
      ((h ++ 0 :: dataTerminated before).length + s.length + 1) space = none := by
    have el : (h ++ 0 :: dataTerminated before).length + s.length + 1 =
        ((h ++ 0 :: dataTerminated before) ++ (s ++ [space])).length := by
      simp only [List.length_append, List.length_cons, List.length_nil]
      omega
    rw [e2]
    apply strchr_none _ _ space _ el
    intro x hx
    simp only [List.mem_append, List.mem_singleton] at hx
    rcases hx with hx | hx
    · exact hf x hx
    · rw [hx]
      decide
  rw [if_pos hlt, if_pos (by rw [rowsAt_length]; omega)]
  simp only [h1, h2]

theorem main_of_parse_none (file : List Byte) (h : parse file = none) : main file = none := by
  unfold main
  rw [h]
  split <;> rfl

/-! ## Well-formed input -/

theorem parses_of_wellFormed (lines : List Line) (hw : ∀ ln ∈ lines, ln.WellFormed) :
    ∀ ln ∈ lines, ln.Parses :=
  fun ln hl => (hw ln hl).1

theorem map_terminate_of_not_mem : ∀ (s : List Byte), newline ∉ s → s.map terminate = s := by
  intro s
  induction s with
  | nil =>
    intro _
    rfl
  | cons x s ih =>
    intro h
    have hx : x ≠ newline := fun e => h (e ▸ List.mem_cons_self x s)
    have hs : newline ∉ s := fun hm => h (List.mem_cons_of_mem x hm)
    simp [terminate, hx, ih hs]

theorem newline_not_mem_text (ln : Line) (hw : ln.WellFormed) : newline ∉ ln.text := by
  intro hm
  simp only [Line.text, List.mem_append, List.mem_cons] at hm
  have hsp : newline ≠ space := by decide
  rcases hm with h | h | h | h | h
  · exact hw.2.1 h
  · exact hsp h
  · exact hw.2.2 h
  · exact hsp h
  · exact (hw.1.2.2 newline h).1 rfl

theorem map_terminate_dataText : ∀ (lines : List Line), (∀ ln ∈ lines, ln.WellFormed) →
    (dataText lines).map terminate = dataTerminated lines := by
  intro lines
  induction lines with
  | nil =>
    intro _
    rfl
  | cons ln rest ih =>
    intro hw
    have h1 := map_terminate_of_not_mem ln.text
      (newline_not_mem_text ln (hw ln (List.mem_cons_self ln rest)))
    have h2 := ih (fun l hl => hw l (List.mem_cons_of_mem ln hl))
    have h3 : terminate newline = 0 := by decide
    simp [dataText, dataTerminated, h1, h2, h3]

theorem map_terminate_fileOf (h : List Byte) (lines : List Line) (hh : HeaderOk h)
    (hw : ∀ ln ∈ lines, ln.WellFormed) :
    (fileOf h lines).map terminate = h ++ 0 :: dataTerminated lines := by
  have h1 := map_terminate_of_not_mem h (fun hm => (hh newline hm).1 rfl)
  have h3 : terminate newline = 0 := by decide
  simp [fileOf, h1, h3, map_terminate_dataText lines hw]

theorem afterSpace_append (t : List Byte) : ∀ (s : List Byte), (∀ c ∈ s, c ≠ space ∧ c ≠ 0) →
    afterSpace (s ++ space :: t) = t := by
  intro s
  induction s with
  | nil =>
    intro _
    simp [afterSpace, List.dropWhile]
  | cons x s ih =>
    intro h
    have hx : x ≠ space := (h x (List.mem_cons_self x s)).1
    have := ih (fun y hy => h y (List.mem_cons_of_mem x hy))
    unfold afterSpace at this ⊢
    simp only [List.cons_append, List.dropWhile, hx, ne_eq, not_false_eq_true,
      decide_True]
    exact this

theorem afterSecondSpace_text (ln : Line) (hp : ln.Parses) :
    afterSecondSpace ln.text = ln.path := by
  unfold afterSecondSpace Line.text
  rw [afterSpace_append _ ln.size hp.1, afterSpace_append _ ln.atime hp.2.1]

theorem sorted_records_of_lines (lines : List Line) (out : List agedu_t)
    (hs : insert_sort (lines.map recordOf) lines.length = some out) :
    (out.map agedu_t.sz).Perm (lines.map Line.text) ∧
      ∀ r ∈ out, ∃ ln ∈ lines, r.sz = ln.text ∧ r.path = ln.path := by
  have hperm := insert_sort_perm _ out _ hs
  constructor
  · have := hperm.map Prod.fst
    simpa [keyOf, recordOf, Function.comp_def] using this
  · intro r hr
    have hm : keyOf r ∈ (lines.map recordOf).map keyOf :=
      hperm.subset (List.mem_map_of_mem keyOf hr)
    simp only [List.map_map, List.mem_map, Function.comp_apply] at hm
    obtain ⟨ln, hl, he⟩ := hm
    refine ⟨ln, hl, ?_, ?_⟩
    · exact (congrArg Prod.fst he).symm
    · exact (congrArg Prod.snd he).symm

theorem insert_sort_lines (lines : List Line) :
    ∃ out, insert_sort (lines.map recordOf) lines.length = some out ∧
      out.length = lines.length ∧ SortedByPath out := by
  obtain ⟨out, ho, hl, hs⟩ := insert_sort_sorted (lines.map recordOf)
  rw [List.length_map] at ho hl
  exact ⟨out, ho, hl, hs⟩

/-! ## The printed rows as a permutation of the input lines -/

theorem perm_map_lift {α β : Type} (f : α → β) : ∀ (m n : List β), m.Perm n →
    ∀ l : List α, n = l.map f → ∃ l2 : List α, l2.Perm l ∧ l2.map f = m := by
  intro m n hp
  induction hp with
  | nil =>
    intro l hl
    cases l with
    | nil => exact ⟨[], List.Perm.refl _, rfl⟩
    | cons a l => simp at hl
  | cons x _ ih =>
    intro l hl
    cases l with
    | nil => simp at hl
    | cons a l =>
      simp only [List.map_cons, List.cons.injEq] at hl
      obtain ⟨l2, hp2, hm2⟩ := ih l hl.2
      exact ⟨a :: l2, List.Perm.cons a hp2, by simp [hm2, hl.1]⟩
  | swap x y t =>
    intro l hl
    cases l with
    | nil => simp at hl
    | cons a l =>
      cases l with
      | nil => simp at hl
      | cons b l =>
        simp only [List.map_cons, List.cons.injEq] at hl
        refine ⟨b :: a :: l, List.Perm.swap a b l, ?_⟩
        simp [hl.1, hl.2.1, hl.2.2]
  | trans _ _ ih1 ih2 =>
    intro l hl
    obtain ⟨l1, hp1, hm1⟩ := ih2 l hl
    obtain ⟨l2, hp2, hm2⟩ := ih1 l1 hm1.symm
    exact ⟨l2, hp2.trans hp1, hm2⟩

theorem printed_of_map_sz : ∀ (out : List agedu_t) (sorted : List Line),
    out.map agedu_t.sz = sorted.map Line.text → printed out = dataText sorted := by
  intro out
  induction out with
  | nil =>
    intro sorted h
    cases sorted with
    | nil => rfl
    | cons ln s => simp at h
  | cons r out ih =>
    intro sorted h
    cases sorted with
    | nil => simp at h
    | cons ln s =>
      simp only [List.map_cons, List.cons.injEq] at h
      simp [printed, dataText, h.1, ih s h.2]

/-- The records `insert_sort` returns for the records of the lines are, in
their `sz` and `path`, the records of a permutation of the lines that is
sorted by path; what `printsorted` writes for them is the text of those
lines. -/
theorem sorted_lines_of_records (lines : List Line) (out : List agedu_t)
    (hs : insert_sort (lines.map recordOf) lines.length = some out) :
    ∃ sorted : List Line, sorted.Perm lines ∧
      out.map keyOf = (sorted.map recordOf).map keyOf ∧
      (sorted.map Line.path).Pairwise (fun p q => strcmppathsep p q ≤ 0) ∧
      printed out = dataText sorted := by
  have hperm := insert_sort_perm _ out _ hs
  obtain ⟨sorted, hp, hm⟩ := perm_map_lift (fun ln => keyOf (recordOf ln))
    (out.map keyOf) ((lines.map recordOf).map keyOf) hperm lines (by simp)
  have hm2 : (sorted.map recordOf).map keyOf = out.map keyOf := by
    rw [← hm]
    simp
  have hsz : out.map agedu_t.sz = sorted.map Line.text := by
    have := congrArg (List.map Prod.fst) hm2
    simpa [keyOf, recordOf, Function.comp_def] using this.symm
  have hpath : sorted.map Line.path = paths out := by
    have := congrArg (List.map Prod.snd) hm2
    simpa [keyOf, recordOf, paths, Function.comp_def] using this
  refine ⟨sorted, hp, hm2.symm, ?_, printed_of_map_sz out sorted hsz⟩
  obtain ⟨o2, ho2, _, hsorted⟩ := insert_sort_sorted (lines.map recordOf)
  rw [List.length_map, hs] at ho2
  cases ho2
  rw [hpath]
  exact hsorted

/-! ## Properties of the specification -/

/-- C1: for every record sequence of length N (in particular one whose paths
are NUL-free strings), `insert_sort` called with `nel = N` returns, keeps the
length, and leaves the paths non-decreasing under `strcmppathsep`: every pair
of adjacent positions compares `<= 0`, and so does every pair `i < j`. -/
theorem insert_sort_nondecreasing (l : List agedu_t) :
    ∃ out, insert_sort l l.length = some out ∧ out.length = l.length ∧
      (∀ i p q, pathAt out i = some p → pathAt out (i + 1) = some q →
        strcmppathsep p q ≤ 0) ∧
      (paths out).Pairwise (fun p q => strcmppathsep p q ≤ 0) := by
  obtain ⟨out, ho, hl, hs⟩ := insert_sort_sorted l
  refine ⟨out, ho, hl, ?_, hs⟩
  intro i p q hp hq
  exact sortedUpTo_of_sortedByPath out (i + 2) hs i (i + 1) (by omega) (by omega) p q hp hq

/-- C2 (the code at the failing input): sorting the two records of the lines
`20 T2 /b` and `10 T1 /a` exchanges `sz` and `path` but leaves each `atime`
where it was, so the output is not a permutation of the input records. -/
theorem insert_sort_leaves_atime_behind :
    insert_sort [rec_b, rec_a] 2 = some [rec_a_moved, rec_b_moved] ∧
      ¬List.Perm [rec_a_moved, rec_b_moved] [rec_b, rec_a] ∧
      rec_a_moved ∉ [rec_b, rec_a] := by
  set_option maxRecDepth 100000 in decide

/-- C3: for all paths `a` and `b` (NUL-free or not) `strcmppathsep a b` is the
negation of `strcmppathsep b a`, so the sign for the swapped pair is the
opposite one. -/
theorem strcmppathsep_swap (a b : List Byte) :
    strcmppathsep a b = -strcmppathsep b a ∧
      (strcmppathsep a b < 0 ↔ strcmppathsep b a > 0) ∧
      (strcmppathsep a b = 0 ↔ strcmppathsep b a = 0) ∧
      (strcmppathsep a b > 0 ↔ strcmppathsep b a < 0) := by
  have h := strcmppathsep_neg_swap a b
  refine ⟨h, ?_, ?_, ?_⟩ <;> omega

/-- C4: the path comparator is transitive: from `strcmppathsep a b <= 0` and
`strcmppathsep b c <= 0` follows `strcmppathsep a c <= 0`, and `< 0` when
either hypothesis is strict. -/
theorem strcmppathsep_transitive (a b c : List Byte) (hab : strcmppathsep a b ≤ 0)
    (hbc : strcmppathsep b c ≤ 0) :
    strcmppathsep a c ≤ 0 ∧
      (strcmppathsep a b < 0 ∨ strcmppathsep b c < 0 → strcmppathsep a c < 0) := by
  refine ⟨strcmppathsep_le_trans a b c hab hbc, ?_⟩
  intro h
  rcases h with h | h
  · exact strcmppathsep_lt_of_lt_of_le a b c h hbc
  · exact strcmppathsep_lt_of_le_of_lt a b c hab h

/-- Transitivity at `dir`, `dir/a`, `dir.txt`. -/
theorem strcmppathsep_transitive_witness :
    strcmppathsep s_dir s_dir_a ≤ 0 ∧ strcmppathsep s_dir_a s_dir_txt ≤ 0 ∧
      strcmppathsep s_dir s_dir_txt ≤ 0 ∧
      (strcmppathsep s_dir s_dir_a < 0 ∨ strcmppathsep s_dir_a s_dir_txt < 0 →
        strcmppathsep s_dir s_dir_txt < 0) :=
  ⟨by decide, by decide,
    strcmppathsep_transitive s_dir s_dir_a s_dir_txt (by decide) (by decide)⟩

/-- C5: for NUL-free paths `a` and `b`, `strcmppathsep a b = 0` exactly when
`a` and `b` are the same byte string. -/
theorem strcmppathsep_eq_zero_iff_eq (a b : List Byte) (ha : NulFree a) (hb : NulFree b) :
    strcmppathsep a b = 0 ↔ a = b :=
  strcmppathsep_eq_zero_of_nulFree a b ha hb

/-- Antisymmetry at `dir` and `directory`. -/
theorem strcmppathsep_eq_zero_iff_eq_witness :
    NulFree s_dir ∧ NulFree s_directory ∧
      (strcmppathsep s_dir s_directory = 0 ↔ s_dir = s_directory) :=
  ⟨by set_option maxRecDepth 100000 in decide, by set_option maxRecDepth 100000 in decide,
    strcmppathsep_eq_zero_iff_eq s_dir s_directory (by set_option maxRecDepth 100000 in decide) (by set_option maxRecDepth 100000 in decide)⟩

/-- C6: parent before child: for every NUL-free path `dir` and every string
`child`, `dir` compares `< 0` with `dir ++ "/" ++ child`, and the latter
compares `> 0` with `dir`. -/
theorem parent_before_child (dir child : List Byte) (hd : NulFree dir) :
    strcmppathsep dir (dir ++ [pathsep] ++ child) < 0 ∧
      strcmppathsep (dir ++ [pathsep] ++ child) dir > 0 := by
  have h1 := strcmppathsep_parent_child dir child hd
  have h2 := strcmppathsep_neg_swap (dir ++ [pathsep] ++ child) dir
  omega

/-- Parent before child at `dir` and `child`. -/
theorem parent_before_child_witness :
    NulFree s_dir ∧ strcmppathsep s_dir (s_dir ++ [pathsep] ++ s_child) < 0 ∧
      strcmppathsep (s_dir ++ [pathsep] ++ s_child) s_dir > 0 :=
  ⟨by set_option maxRecDepth 100000 in decide, parent_before_child s_dir s_child (by set_option maxRecDepth 100000 in decide)⟩

/-- C7: separator beats byte value: after a common NUL-free prefix `p`, a
string that continues with `/` compares `< 0` with one that continues with any
byte `c` other than `/` and NUL (whatever the value of `c`), and `> 0` the
other way round; in particular `dir/a` compares `< 0` with `dir.txt`. -/
theorem separator_beats_byte_value (p s t : List Byte) (c : Byte) (hp : NulFree p)
    (hc : c ≠ pathsep) (h0 : c ≠ 0) :
    strcmppathsep (p ++ [pathsep] ++ s) (p ++ c :: t) < 0 ∧
      strcmppathsep (p ++ c :: t) (p ++ [pathsep] ++ s) > 0 ∧
      strcmppathsep s_dir_a s_dir_txt < 0 := by
  have h1 := strcmppathsep_sep_first p s t c hp hc h0
  have h2 := strcmppathsep_neg_swap (p ++ c :: t) (p ++ [pathsep] ++ s)
  have h3 : strcmppathsep s_dir_a s_dir_txt < 0 := by decide
  omega

/-- Separator precedence at the prefix `dir`, with `/a` against `.txt`. -/
theorem separator_beats_byte_value_witness :
    NulFree s_dir ∧ (46 : Byte) ≠ pathsep ∧ (46 : Byte) ≠ 0 ∧
      strcmppathsep (s_dir ++ [pathsep] ++ bytes "a") (s_dir ++ 46 :: bytes "txt") < 0 ∧
      strcmppathsep (s_dir ++ 46 :: bytes "txt") (s_dir ++ [pathsep] ++ bytes "a") > 0 ∧
      strcmppathsep s_dir_a s_dir_txt < 0 :=
  ⟨by set_option maxRecDepth 100000 in decide, by decide, by decide,
    separator_beats_byte_value s_dir (bytes "a") (bytes "txt") 46
      (by set_option maxRecDepth 100000 in decide) (by decide) (by decide)⟩

/-- C8: a directory's descendants cluster right after it.  For a NUL-free path
`d`, any `s` and any `x` that is neither `d` nor begins with `d ++ "/"`, it is
not the case that `d` compares `< 0` with `x` and `x` compares `< 0` with
`d ++ "/" ++ s`.  Hence, for records with NUL-free paths, in the output of
`insert_sort` every record between one with path `d` and one whose path
extends `d ++ "/"` has path `d` or a path that begins with `d ++ "/"`. -/
theorem descendants_cluster (l : List agedu_t) (hl : ∀ r ∈ l, NulFree r.path) :
    (∀ d s x : List Byte, NulFree d → x ≠ d → ¬(d ++ [pathsep]) <+: x →
      ¬(strcmppathsep d x < 0 ∧ strcmppathsep x (d ++ [pathsep] ++ s) < 0)) ∧
    ∃ out, insert_sort l l.length = some out ∧
      ∀ i j k d s x, i < j → j < k → pathAt out i = some d → pathAt out j = some x →
        pathAt out k = some (d ++ [pathsep] ++ s) → x = d ∨ (d ++ [pathsep]) <+: x := by
  refine ⟨fun d s x hd hx hp => no_path_between d s x hd hx hp, ?_⟩
  obtain ⟨out, ho, _, hs⟩ := insert_sort_sorted l
  refine ⟨out, ho, ?_⟩
  have hnf : ∀ n p, pathAt out n = some p → NulFree p := by
    intro n p hp
    unfold pathAt at hp
    cases hn : out[n]? with
    | none => simp [hn] at hp
    | some r =>
      simp only [hn, Option.map_some', Option.some.injEq] at hp
      obtain ⟨r0, hr0, he⟩ := insert_sort_path_mem l out _ ho r (List.getElem?_mem hn)
      rw [← hp, ← he]
      exact hl r0 hr0
  intro i j k d s x hij hjk hi hj hk
  have hsp := sortedUpTo_of_sortedByPath out (k + 1) hs
  have h1 := hsp i j hij (by omega) d x hi hj
  have h2 := hsp j k hjk (by omega) x _ hj hk
  by_cases hxd : x = d
  · exact Or.inl hxd
  · right
    by_contra hpre
    have n1 : strcmppathsep d x ≠ 0 := fun e =>
      hxd ((strcmppathsep_eq_zero_of_nulFree d x (hnf i d hi) (hnf j x hj)).1 e).symm
    have n2 : strcmppathsep x (d ++ [pathsep] ++ s) ≠ 0 := by
      intro e
      have := (strcmppathsep_eq_zero_of_nulFree x _ (hnf j x hj) (hnf k _ hk)).1 e
      apply hpre
      rw [this]
      exact ⟨s, rfl⟩
    exact no_path_between d s x (hnf i d hi) hxd hpre ⟨by omega, by omega⟩

/-- Clustering at three records with paths `dir/a`, `dir.txt`, `dir`. -/
theorem descendants_cluster_witness :
    (∀ r ∈ recs_unsorted, NulFree r.path) ∧
      ¬(strcmppathsep s_dir s_dir_txt < 0 ∧
        strcmppathsep s_dir_txt (s_dir ++ [pathsep] ++ bytes "a") < 0) ∧
      ∃ out, insert_sort recs_unsorted recs_unsorted.length = some out ∧
        ∀ i j k d s x, i < j → j < k → pathAt out i = some d → pathAt out j = some x →
          pathAt out k = some (d ++ [pathsep] ++ s) → x = d ∨ (d ++ [pathsep]) <+: x :=
  ⟨by set_option maxRecDepth 100000 in decide,
    (descendants_cluster recs_unsorted (by set_option maxRecDepth 100000 in decide)).1
      s_dir (bytes "a") s_dir_txt (by set_option maxRecDepth 100000 in decide)
      (by set_option maxRecDepth 100000 in decide)
      (by set_option maxRecDepth 100000 in decide),
    (descendants_cluster recs_unsorted (by set_option maxRecDepth 100000 in decide)).2⟩

/-- C9: when neither byte at the first point of difference (after a common
NUL-free prefix `p`) is the separator, `strcmppathsep` returns the unsigned
byte of `a` there minus the unsigned byte of `b` there, an ended string
counting as byte 0.  Hence a byte `>= 0x80` sorts after every byte `< 0x80`;
on NUL-free paths without `/` the sign agrees with the lexicographic order of
the byte values; and `dir` compares `< 0` with `directory`. -/
theorem strcmppathsep_unsigned_bytes :
    (∀ p a b : List Byte, NulFree p → deref a ≠ deref b → deref a ≠ pathsep →
      deref b ≠ pathsep →
      strcmppathsep (p ++ a) (p ++ b) = ((deref a).val : Int) - ((deref b).val : Int)) ∧
    (∀ (p s t : List Byte) (lo hi : Byte), NulFree p → lo.val < 128 → 128 ≤ hi.val →
      strcmppathsep (p ++ lo :: s) (p ++ hi :: t) < 0) ∧
    (∀ a b : List Byte, NulFree a → NulFree b → pathsep ∉ a → pathsep ∉ b →
      (strcmppathsep a b < 0 ↔ List.Lex (· < ·) a b) ∧
      (strcmppathsep a b = 0 ↔ a = b) ∧
      (strcmppathsep a b > 0 ↔ List.Lex (· < ·) b a)) ∧
    strcmppathsep s_dir s_directory < 0 := by
  refine ⟨strcmppathsep_first_difference, strcmppathsep_high_after_low, ?_, by decide⟩
  intro a b ha hb hsa hsb
  refine ⟨strcmppathsep_neg_iff_lex a b ha hb hsa hsb,
    strcmppathsep_eq_zero_of_nulFree a b ha hb, ?_⟩
  rw [← strcmppathsep_neg_iff_lex b a hb ha hsb hsa]
  have := strcmppathsep_neg_swap a b
  omega

/-- Unsigned byte comparison at `dir` against `directory`, at the bytes `0x7e`
and `0x80`, and at `dir` against `dir.txt`. -/
theorem strcmppathsep_unsigned_bytes_witness :
    strcmppathsep (s_dir ++ []) (s_dir ++ bytes "ectory") = (0 : Int) - 101 ∧
      strcmppathsep (s_dir ++ 126 :: []) (s_dir ++ 128 :: []) < 0 ∧
      (strcmppathsep s_dir s_dir_txt < 0 ↔ List.Lex (· < ·) s_dir s_dir_txt) :=
  ⟨strcmppathsep_unsigned_bytes.1 s_dir [] (bytes "ectory")
      (by set_option maxRecDepth 100000 in decide) (by decide) (by decide) (by decide),
    strcmppathsep_unsigned_bytes.2.1 s_dir [] [] 126 128
      (by set_option maxRecDepth 100000 in decide) (by decide) (by decide),
    (strcmppathsep_unsigned_bytes.2.2.1 s_dir s_dir_txt
      (by set_option maxRecDepth 100000 in decide)
      (by set_option maxRecDepth 100000 in decide)
      (by set_option maxRecDepth 100000 in decide)
      (by set_option maxRecDepth 100000 in decide)).1⟩

/-- C10: sorting an already-sorted sequence yields the same sequence: when the
paths are non-decreasing under `strcmppathsep`, `insert_sort` returns the
records unchanged, and the condition of its inner loop is false at every
adjacent pair, so no swap is performed. -/
theorem insert_sort_sorted_unchanged (l : List agedu_t) (h : SortedByPath l) :
    insert_sort l l.length = some l ∧
      ∀ d p1 p2, l[d]? = some p1 → l[d + 1]? = some p2 → ¬compareentries p1 p2 > 0 := by
  refine ⟨insert_sort_of_sorted l h, ?_⟩
  intro d p1 p2 h1 h2
  have hle := sortedUpTo_of_sortedByPath l (d + 2) h d (d + 1) (by omega) (by omega)
    p1.path p2.path (by simp [pathAt, h1]) (by simp [pathAt, h2])
  unfold compareentries
  omega

/-- Sorting the sorted records with paths `dir`, `dir/a`, `dir.txt`. -/
theorem insert_sort_sorted_unchanged_witness :
    SortedByPath recs_sorted ∧
      insert_sort recs_sorted recs_sorted.length = some recs_sorted :=
  ⟨by set_option maxRecDepth 100000 in decide,
    (insert_sort_sorted_unchanged recs_sorted
      (by set_option maxRecDepth 100000 in decide)).1⟩

/-- C11: sorting twice yields the same result as sorting once: `insert_sort`
returns on every record sequence, and applied to its own result it returns
that result again, field for field. -/
theorem insert_sort_twice (l : List agedu_t) :
    ∃ out, insert_sort l l.length = some out ∧ insert_sort out out.length = some out := by
  obtain ⟨out, ho, _, hs⟩ := insert_sort_sorted l
  exact ⟨out, ho, insert_sort_of_sorted out hs⟩

/-- C15: `insert_sort` is a no-op for `nel = 0` and `nel = 1`: its `for` loop
runs no iteration, so whatever is stored (also nothing at all, where any read
would be outside the store) is returned unchanged; in particular every
sequence of length 0 or 1 is returned unchanged. -/
theorem insert_sort_small_noop (l : List agedu_t) :
    insert_sort l 0 = some l ∧ insert_sort l 1 = some l ∧
      insert_sort ([] : List agedu_t) 0 = some [] ∧
      insert_sort ([] : List agedu_t) 1 = some [] ∧
      (l.length ≤ 1 → insert_sort l l.length = some l) := by
  refine ⟨rfl, rfl, rfl, rfl, ?_⟩
  intro h
  have e : ((l.length : Int) - 1).toNat = 0 := by omega
  unfold insert_sort
  rw [e]
  rfl

/-- C15 at a one-record sequence. -/
theorem insert_sort_small_noop_witness :
    [rec_a].length ≤ 1 ∧ insert_sort [rec_a] [rec_a].length = some [rec_a] :=
  ⟨by decide, (insert_sort_small_noop [rec_a]).2.2.2.2 (by decide)⟩

/-- C16: `insert_sort` is stable: for every path `p`, the records whose path
compares equal to `p` appear in the output, as (size, path) pairs, in the same
order as in the input. -/
theorem insert_sort_stable (l : List agedu_t) (p : List Byte) :
    ∃ out, insert_sort l l.length = some out ∧
      (out.map keyOf).filter (fun k => decide (strcmppathsep k.2 p = 0)) =
        (l.map keyOf).filter (fun k => decide (strcmppathsep k.2 p = 0)) := by
  obtain ⟨out, ho, _, _⟩ := insert_sort_sorted l
  exact ⟨out, ho, forLoop_filter p _ 1 l out ho⟩

/-- C17: `insert_sort` preserves the multiset of (size, path) pairs: the pairs
of the output are a permutation of the pairs of the input. -/
theorem insert_sort_keeps_size_with_path (l : List agedu_t) :
    ∃ out, insert_sort l l.length = some out ∧
      (out.map (fun r => (r.sz, r.path))).Perm (l.map (fun r => (r.sz, r.path))) := by
  obtain ⟨out, ho, _, _⟩ := insert_sort_sorted l
  exact ⟨out, ho, insert_sort_perm l out _ ho⟩

/-- C18: `insert_sort` never moves the access-time field: at every index the
`atime` after the sort is the `atime` before it. -/
theorem insert_sort_atime_in_place (l : List agedu_t) :
    ∃ out, insert_sort l l.length = some out ∧ out.length = l.length ∧
      ∀ i : Nat, (out[i]?).map agedu_t.atime = (l[i]?).map agedu_t.atime := by
  obtain ⟨out, ho, hl, _⟩ := insert_sort_sorted l
  refine ⟨out, ho, hl, ?_⟩
  intro i
  have h := forLoop_atime _ 1 l out ho
  have := congrArg (fun m => m[i]?) h
  simpa using this

/-- C20: `insert_sort` terminates and stays in bounds.  On a store of exactly
`nel` records it returns (an access outside indices `0 .. nel-1` would make it
`none`), and records stored behind the first `nel` are left as they are; for
`nel <= 1`, negative values included, it returns without any access, also on
an empty store; and the inner loop entered with `d = 0` returns without
dereferencing `p1`, the pointer to index `-1`. -/
theorem insert_sort_in_bounds (l extra : List agedu_t) (nel : Int) :
    (∃ out, insert_sort l l.length = some out ∧ out.length = l.length ∧
      insert_sort (l ++ extra) l.length = some (out ++ extra)) ∧
    (nel ≤ 1 → insert_sort ([] : List agedu_t) nel = some [] ∧
      insert_sort l nel = some l) ∧
    whileLoop ([] : List agedu_t) 0 = some [] := by
  refine ⟨?_, ?_, rfl⟩
  · obtain ⟨out, ho, hl, _⟩ := insert_sort_sorted l
    exact ⟨out, ho, hl, forLoop_append _ 1 l extra out ho⟩
  · intro h
    have e : (nel - 1).toNat = 0 := by omega
    unfold insert_sort
    rw [e]
    exact ⟨rfl, rfl⟩

/-- C20 at `nel = -3` on two stored records. -/
theorem insert_sort_in_bounds_witness :
    (-3 : Int) ≤ 1 ∧ insert_sort ([] : List agedu_t) (-3) = some [] ∧
      insert_sort [rec_b, rec_a] (-3) = some [rec_b, rec_a] :=
  ⟨by decide, (insert_sort_in_bounds [rec_b, rec_a] [] (-3)).2.1 (by decide)⟩

/-- C12 (as stated, at the end-to-end input): the program does not print the
sizes only; it prints the four input lines in full. -/
theorem main_example_not_sizes_only :
    main example_input = some example_input ∧ main example_input ≠ some example_sizes_only := by
  set_option maxRecDepth 1000000 in decide

/-- C12 (amended): for every well-formed input of at most `capacity` rows the
output is the header line followed by exactly N lines, the i-th of which is
the whole data line (size, access time and path) of the i-th record in sorted
order: the printed rows are the lines of a permutation `sorted` of the input
lines whose paths are non-decreasing, and `sorted` is, in `sz` and `path`, the
sequence of records `insert_sort` leaves. -/
theorem main_prints_whole_lines (h : List Byte) (lines : List Line) (hh : HeaderOk h)
    (hw : ∀ ln ∈ lines, ln.WellFormed) (hc : lines.length ≤ capacity) :
    ∃ (out : List agedu_t) (sorted : List Line),
      insert_sort (lines.map recordOf) lines.length = some out ∧
      out.length = lines.length ∧ SortedByPath out ∧
      (∀ r ∈ out, newline ∉ r.sz ∧ ∃ ln ∈ lines, r.sz = ln.text ∧ r.path = ln.path) ∧
      sorted.Perm lines ∧
      out.map (fun r => (r.sz, r.path)) = sorted.map (fun ln => (ln.text, ln.path)) ∧
      (sorted.map Line.path).Pairwise (fun p q => strcmppathsep p q ≤ 0) ∧
      printed out = dataText sorted ∧
      main (fileOf h lines) = some (h ++ newline :: printed out) ∧
      main (fileOf h lines) = some (fileOf h sorted) := by
  obtain ⟨out, ho, hl, hs⟩ := insert_sort_lines lines
  obtain ⟨sorted, hperm, hkey, hpw, hpr⟩ := sorted_lines_of_records lines out ho
  have hmain := main_fileOf h lines out hh (parses_of_wellFormed lines hw) hc ho
  refine ⟨out, sorted, ho, hl, hs, ?_, hperm, ?_, hpw, hpr, hmain, ?_⟩
  · intro r hr
    obtain ⟨ln, hln, e1, e2⟩ := (sorted_records_of_lines lines out ho).2 r hr
    refine ⟨?_, ln, hln, e1, e2⟩
    rw [e1]
    exact newline_not_mem_text ln (hw ln hln)
  · have := hkey
    simpa [keyOf, recordOf, Function.comp_def] using this
  · rw [hmain, hpr]
    rfl

/-- C12 (amended) at the end-to-end input. -/
theorem main_prints_whole_lines_witness :
    HeaderOk example_header ∧ (∀ ln ∈ example_lines, ln.WellFormed) ∧
      example_lines.length ≤ capacity ∧
      ∃ (out : List agedu_t) (sorted : List Line),
        insert_sort (example_lines.map recordOf) example_lines.length = some out ∧
        out.length = example_lines.length ∧ SortedByPath out ∧
        (∀ r ∈ out, newline ∉ r.sz ∧
          ∃ ln ∈ example_lines, r.sz = ln.text ∧ r.path = ln.path) ∧
        sorted.Perm example_lines ∧
        out.map (fun r => (r.sz, r.path)) = sorted.map (fun ln => (ln.text, ln.path)) ∧
        (sorted.map Line.path).Pairwise (fun p q => strcmppathsep p q ≤ 0) ∧
        printed out = dataText sorted ∧
        main (fileOf example_header example_lines) =
          some (example_header ++ newline :: printed out) ∧
        main (fileOf example_header example_lines) = some (fileOf example_header sorted) :=
  ⟨by set_option maxRecDepth 1000000 in decide,
    by set_option maxRecDepth 1000000 in decide,
    by set_option maxRecDepth 1000000 in decide,
    main_prints_whole_lines example_header example_lines
      (by set_option maxRecDepth 1000000 in decide)
      (by set_option maxRecDepth 1000000 in decide)
      (by set_option maxRecDepth 1000000 in decide)⟩

/-- C13 (as stated, at a concrete input): the data line `100 onlyonefield` has
one space only, and yet the run ends normally and writes output. -/
theorem malformed_row_accepted :
    (bytes "100 onlyonefield").count space = 1 ∧
      malformed_input = bytes "H" ++ newline :: (bytes "100 onlyonefield" ++
        newline :: (line_x.text ++ [newline])) ∧
      main malformed_input = some malformed_input ∧ main malformed_input ≠ none := by
  set_option maxRecDepth 1000000 in decide

/-- C13 (amended): a data line with fewer than two spaces is not detected.
When it is the last line, `strchr` runs past the text and the run ends
abnormally with nothing written; when a well-formed line follows, the parser
takes the missing separators from that line, the two lines become one record,
and the run prints its output. -/
theorem malformed_row_not_detected (h s f : List Byte) (before rest : List Line) (ln : Line)
    (hh : HeaderOk h) (hb : ∀ l ∈ before, l.WellFormed) (hs : FieldOk s) (hf : FieldOk f)
    (hl : ln.WellFormed) (hr : ∀ l ∈ rest, l.WellFormed)
    (hc : (before ++ ln :: rest).length ≤ capacity) :
    main (h ++ newline :: (dataText before ++ (s ++ [newline]))) = none ∧
    main (h ++ newline :: (dataText before ++ (s ++ space :: (f ++ [newline])))) = none ∧
    (∃ out, insert_sort ((before ++ ⟨s ++ newline :: ln.size, ln.atime, ln.path⟩ :: rest).map
        recordOf) (before ++ ln :: rest).length = some out ∧
      main (h ++ newline :: (dataText before ++ (s ++ newline :: dataText (ln :: rest)))) =
        some (h ++ newline :: printed out)) ∧
    (∃ out, insert_sort ((before ++
        ⟨s, f ++ newline :: ln.size, ln.atime ++ space :: ln.path⟩ :: rest).map recordOf)
        (before ++ ln :: rest).length = some out ∧
      main (h ++ newline ::
        (dataText before ++ (s ++ space :: (f ++ newline :: dataText (ln :: rest))))) =
        some (h ++ newline :: printed out)) := by
  have hbp := parses_of_wellFormed before hb
  have hrp := parses_of_wellFormed rest hr
  have hc1 : before.length + 1 ≤ capacity := by
    simp only [List.length_append, List.length_cons] at hc
    omega
  have hs2 : ∀ c ∈ s, c ≠ space ∧ c ≠ 0 := fun c hc => ⟨(hs c hc).1, (hs c hc).2.2⟩
  have hf2 : ∀ c ∈ f, c ≠ space ∧ c ≠ 0 := fun c hc => ⟨(hf c hc).1, (hf c hc).2.2⟩
  have hn1 : newline ≠ space := by decide
  have hn0 : newline ≠ (0 : Byte) := by decide
  have hsp : space ≠ newline := by decide
  have hs0 : space ≠ (0 : Byte) := by decide
  refine ⟨main_of_parse_none _ (parse_no_space_last h s before hh hbp hc1 hs2),
    main_of_parse_none _ (parse_one_space_last h s f before hh hbp hc1 hs2 hf2), ?_, ?_⟩
  · have hm : (⟨s ++ newline :: ln.size, ln.atime, ln.path⟩ : Line).Parses := by
      refine ⟨?_, hl.1.2.1, hl.1.2.2⟩
      intro c hc
      simp only [List.mem_append, List.mem_cons] at hc
      rcases hc with h1 | h1 | h1
      · exact hs2 c h1
      · exact h1 ▸ ⟨hn1, hn0⟩
      · exact hl.1.1 c h1
    have hall : ∀ l ∈ before ++ ⟨s ++ newline :: ln.size, ln.atime, ln.path⟩ :: rest,
        l.Parses := by
      intro l hl2
      simp only [List.mem_append, List.mem_cons] at hl2
      rcases hl2 with h1 | h1 | h1
      · exact hbp l h1
      · exact h1 ▸ hm
      · exact hrp l h1
    have hlen : (before ++ ⟨s ++ newline :: ln.size, ln.atime, ln.path⟩ :: rest).length =
        (before ++ ln :: rest).length := by simp
    obtain ⟨out, ho, _, _⟩ := insert_sort_lines
      (before ++ ⟨s ++ newline :: ln.size, ln.atime, ln.path⟩ :: rest)
    have hmain := main_fileOf h _ out hh hall (by rw [hlen]; exact hc) ho
    rw [hlen] at ho
    refine ⟨out, ho, ?_⟩
    rw [← hmain]
    congr 1
    simp [fileOf, dataText_append, dataText, Line.text]
  · have hm : (⟨s, f ++ newline :: ln.size, ln.atime ++ space :: ln.path⟩ : Line).Parses := by
      refine ⟨hs2, ?_, ?_⟩
      · intro c hc
        simp only [List.mem_append, List.mem_cons] at hc
        rcases hc with h1 | h1 | h1
        · exact hf2 c h1
        · exact h1 ▸ ⟨hn1, hn0⟩
        · exact hl.1.1 c h1
      · intro c hc
        simp only [List.mem_append, List.mem_cons] at hc
        rcases hc with h1 | h1 | h1
        · exact ⟨fun e => hl.2.2 (e ▸ h1), (hl.1.2.1 c h1).2⟩
        · exact h1 ▸ ⟨hsp, hs0⟩
        · exact hl.1.2.2 c h1
    have hall : ∀ l ∈ before ++
        ⟨s, f ++ newline :: ln.size, ln.atime ++ space :: ln.path⟩ :: rest, l.Parses := by
      intro l hl2
      simp only [List.mem_append, List.mem_cons] at hl2
      rcases hl2 with h1 | h1 | h1
      · exact hbp l h1
      · exact h1 ▸ hm
      · exact hrp l h1
    have hlen : (before ++
        ⟨s, f ++ newline :: ln.size, ln.atime ++ space :: ln.path⟩ :: rest).length =
        (before ++ ln :: rest).length := by simp
    obtain ⟨out, ho, _, _⟩ := insert_sort_lines
      (before ++ ⟨s, f ++ newline :: ln.size, ln.atime ++ space :: ln.path⟩ :: rest)
    have hmain := main_fileOf h _ out hh hall (by rw [hlen]; exact hc) ho
    rw [hlen] at ho
    refine ⟨out, ho, ?_⟩
    rw [← hmain]
    congr 1
    simp [fileOf, dataText_append, dataText, Line.text]

/-- C13 (amended) at the header `H`, the line `100 onlyonefield` and the
following line `5 t /x`. -/
theorem malformed_row_not_detected_witness :
    HeaderOk (bytes "H") ∧ FieldOk (bytes "100") ∧ FieldOk (bytes "onlyonefield") ∧
      line_x.WellFormed ∧
      main (bytes "H" ++ newline :: (dataText [] ++
        (bytes "100" ++ space :: (bytes "onlyonefield" ++ [newline])))) = none ∧
      ∃ out, insert_sort (([] ++ [(⟨bytes "100", bytes "onlyonefield" ++ newline :: line_x.size,
          line_x.atime ++ space :: line_x.path⟩ : Line)]).map recordOf)
          ([] ++ [line_x]).length = some out ∧
        main (bytes "H" ++ newline :: (dataText [] ++ (bytes "100" ++ space ::
          (bytes "onlyonefield" ++ newline :: dataText [line_x])))) =
          some (bytes "H" ++ newline :: printed out) :=
  ⟨by set_option maxRecDepth 1000000 in decide,
    by set_option maxRecDepth 1000000 in decide,
    by set_option maxRecDepth 1000000 in decide,
    by set_option maxRecDepth 1000000 in decide,
    (malformed_row_not_detected (bytes "H") (bytes "100") (bytes "onlyonefield") [] []
      line_x (by set_option maxRecDepth 1000000 in decide) (by simp)
      (by set_option maxRecDepth 1000000 in decide)
      (by set_option maxRecDepth 1000000 in decide)
      (by set_option maxRecDepth 1000000 in decide) (by simp)
      (by set_option maxRecDepth 1000000 in decide)).2.1,
    (malformed_row_not_detected (bytes "H") (bytes "100") (bytes "onlyonefield") [] []
      line_x (by set_option maxRecDepth 1000000 in decide) (by simp)
      (by set_option maxRecDepth 1000000 in decide)
      (by set_option maxRecDepth 1000000 in decide)
      (by set_option maxRecDepth 1000000 in decide) (by simp)
      (by set_option maxRecDepth 1000000 in decide)).2.2.2⟩

/-- C14: for every well-formed input of N data lines (at most `capacity`) the
parsing loop produces exactly N records, one per data line in input order, and
the path of the i-th record is the text of the i-th data line after its second
space, up to its newline, further spaces included. -/
theorem parser_one_record_per_line (h : List Byte) (lines : List Line) (hh : HeaderOk h)
    (hw : ∀ ln ∈ lines, ln.WellFormed) (hc : lines.length ≤ capacity) :
    ∃ mem rows recs, parse (fileOf h lines) = some (mem, rows) ∧
      loadAll mem rows = some recs ∧ rows.length = lines.length ∧
      recs.length = lines.length ∧
      ∀ (i : Nat) (ln : Line), lines[i]? = some ln →
        (recs[i]?).map agedu_t.path = some (afterSecondSpace ln.text) ∧
        afterSecondSpace ln.text = ln.path := by
  have hp := parses_of_wellFormed lines hw
  refine ⟨_, _, lines.map recordOf, parse_fileOf h lines hh hp hc, ?_, rowsAt_length _ _,
    List.length_map _ _, ?_⟩
  · have := loadAll_lines lines (h ++ [0]) hp
    simpa using this
  · intro i ln hi
    have e := afterSecondSpace_text ln (hp ln (List.getElem?_mem hi))
    refine ⟨?_, e⟩
    rw [e, List.getElem?_map, hi]
    rfl

/-- C14 at the end-to-end input. -/
theorem parser_one_record_per_line_witness :
    HeaderOk example_header ∧ (∀ ln ∈ example_lines, ln.WellFormed) ∧
      example_lines.length ≤ capacity ∧
      ∃ mem rows recs, parse (fileOf example_header example_lines) = some (mem, rows) ∧
        loadAll mem rows = some recs ∧ rows.length = example_lines.length ∧
        recs.length = example_lines.length ∧
        ∀ (i : Nat) (ln : Line), example_lines[i]? = some ln →
          (recs[i]?).map agedu_t.path = some (afterSecondSpace ln.text) ∧
          afterSecondSpace ln.text = ln.path :=
  ⟨by set_option maxRecDepth 1000000 in decide,
    by set_option maxRecDepth 1000000 in decide,
    by set_option maxRecDepth 1000000 in decide,
    parser_one_record_per_line example_header example_lines
      (by set_option maxRecDepth 1000000 in decide)
      (by set_option maxRecDepth 1000000 in decide)
      (by set_option maxRecDepth 1000000 in decide)⟩

/-- C19: for every well-formed input (at most `capacity` rows) the parser
overwrites the newlines and nothing else, so the string at a record's `sz` is
its whole line; the rows the program prints are the input data lines in full,
permuted so that their paths are non-decreasing under `strcmppathsep`: the
output is the file of a permutation `sorted` of the input lines with
non-decreasing paths, and the records `insert_sort` leaves carry, each in its
`sz` and `path`, the text and the path of the same line of `sorted`. -/
theorem parser_terminates_lines_only (h : List Byte) (lines : List Line) (hh : HeaderOk h)
    (hw : ∀ ln ∈ lines, ln.WellFormed) (hc : lines.length ≤ capacity) :
    ∃ (mem : List Byte) (rows : List agedu_ptr) (recs out : List agedu_t)
      (sorted : List Line),
      parse (fileOf h lines) = some (mem, rows) ∧
      mem = (fileOf h lines).map terminate ∧
      loadAll mem rows = some recs ∧ recs.map agedu_t.sz = lines.map Line.text ∧
      recs.map agedu_t.path = lines.map Line.path ∧
      insert_sort recs lines.length = some out ∧
      (out.map agedu_t.sz).Perm (lines.map Line.text) ∧
      (paths out).Pairwise (fun p q => strcmppathsep p q ≤ 0) ∧
      sorted.Perm lines ∧
      out.map (fun r => (r.sz, r.path)) = sorted.map (fun ln => (ln.text, ln.path)) ∧
      (sorted.map Line.path).Pairwise (fun p q => strcmppathsep p q ≤ 0) ∧
      main (fileOf h lines) = some (h ++ newline :: printed out) ∧
      main (fileOf h lines) = some (h ++ newline :: dataText sorted) := by
  have hp := parses_of_wellFormed lines hw
  obtain ⟨out, ho, _, hs⟩ := insert_sort_lines lines
  obtain ⟨sorted, hperm, hkey, hpw, hpr⟩ := sorted_lines_of_records lines out ho
  have hmain := main_fileOf h lines out hh hp hc ho
  refine ⟨_, _, lines.map recordOf, out, sorted, parse_fileOf h lines hh hp hc,
    (map_terminate_fileOf h lines hh hw).symm, ?_, ?_, ?_, ho,
    (sorted_records_of_lines lines out ho).1, hs, hperm, ?_, hpw, hmain, ?_⟩
  · have := loadAll_lines lines (h ++ [0]) hp
    simpa using this
  · simp [recordOf, Function.comp_def]
  · simp [recordOf, Function.comp_def]
  · have := hkey
    simpa [keyOf, recordOf, Function.comp_def] using this
  · rw [hmain, hpr]

/-- C19 at the end-to-end input. -/
theorem parser_terminates_lines_only_witness :
    HeaderOk example_header ∧ (∀ ln ∈ example_lines, ln.WellFormed) ∧
      example_lines.length ≤ capacity ∧
      ∃ (mem : List Byte) (rows : List agedu_ptr) (recs out : List agedu_t)
        (sorted : List Line),
        parse (fileOf example_header example_lines) = some (mem, rows) ∧
        mem = (fileOf example_header example_lines).map terminate ∧
        loadAll mem rows = some recs ∧ recs.map agedu_t.sz = example_lines.map Line.text ∧
        recs.map agedu_t.path = example_lines.map Line.path ∧
        insert_sort recs example_lines.length = some out ∧
        (out.map agedu_t.sz).Perm (example_lines.map Line.text) ∧
        (paths out).Pairwise (fun p q => strcmppathsep p q ≤ 0) ∧
        sorted.Perm example_lines ∧
        out.map (fun r => (r.sz, r.path)) = sorted.map (fun ln => (ln.text, ln.path)) ∧
        (sorted.map Line.path).Pairwise (fun p q => strcmppathsep p q ≤ 0) ∧
        main (fileOf example_header example_lines) =
          some (example_header ++ newline :: printed out) ∧
        main (fileOf example_header example_lines) =
          some (example_header ++ newline :: dataText sorted) :=
  ⟨by set_option maxRecDepth 1000000 in decide,
    by set_option maxRecDepth 1000000 in decide,
    by set_option maxRecDepth 1000000 in decide,
    parser_terminates_lines_only example_header example_lines
      (by set_option maxRecDepth 1000000 in decide)
      (by set_option maxRecDepth 1000000 in decide)
      (by set_option maxRecDepth 1000000 in decide)⟩

end Presort
